import Mathlib

/-!
Shallow embedding of `e621_tag_counter.py` (Yoriyari/e621-Tags-by-Year).

The script counts, for each requested e621 tag, how many posts were made in
each of the last 18 years.  The remote search endpoint only paginates up to
750 pages, so large result sets are counted by adaptively partitioning the
score axis (`get_batched_post_count`).  Results are merged into a CSV file
(`update_csv_file`), and already-recorded tags are skipped
(`remove_known_tags`).

The browser-driven Search Client is modelled as an environment `Env` that
maps a query string (exactly the string the Python code builds) to either a
timeout (`none`) or a pair `(data_total, page_count)`: `data_total` is the
pagination's `data-total` attribute (number of result pages) and
`page_count` is the number of posts counted on the final page
(`get_post_count_on_current_page`).  Recursion is made total with an
explicit fuel parameter; `RunRes.fuelOut` marks fuel exhaustion (used to
reason about the non-termination of the degenerate-partition case).
-/

/-- Constant `CURRENT_YEAR = 2025` from the script. -/
def CURRENT_YEAR : Nat := 2025

/-- Constant `INITIAL_BOUND_SCORE = 512` from the script. -/
def INITIAL_BOUND_SCORE : Int := 512

/-- Constant `INITIAL_INTERVAL_SCORE = 512` from the script. -/
def INITIAL_INTERVAL_SCORE : Int := 512

/-- Outcome of running a fuel-bounded embedded computation:
fuel ran out, a Playwright `TimeoutError` was raised, or a value was
returned. -/
inductive RunRes (α : Type) where
  | fuelOut : RunRes α
  | timeout : RunRes α
  | ok : α → RunRes α
deriving DecidableEq, Repr

/-- The Search Client at the count/truncation boundary: for a query string
(exactly as the Python code builds it), `none` models a `TimeoutError` on
`page.goto`, and `some (data_total, page_count)` models a loaded result
page whose pagination reports `data_total` pages and whose final page
contains `page_count` posts. -/
structure Env where
  query : String → Option (Nat × Nat)

/-- Ghost-instrumented result of `get_batched_post_count`: `count` is the
value the Python function returns; `windows` records each successful score
window of the partitioning loop as `(low, high, sub-count)`; `above` and
`nonpos` are the results of the two boundary queries (`score:>512`,
`score:<=0`); the three logs record every query string issued, in order,
by the loop and by the two boundary calls respectively. -/
structure BatchResult where
  count : Nat
  windows : List (Int × Int × Nat)
  above : Nat
  nonpos : Nat
  loopLog : List String
  aboveLog : List String
  nonposLog : List String
deriving DecidableEq, Repr

/-- All queries issued by one `get_batched_post_count` call, in order. -/
def BatchResult.log (r : BatchResult) : List String :=
  r.loopLog ++ r.aboveLog ++ r.nonposLog

/-- The score-window query string built at line 186:
`f"{tags} score:{max(1, bound-interval+1)}..{bound}"`. -/
def batched_query (tags : String) (bound interval : Int) : String :=
  tags ++ " score:" ++ toString (max 1 (bound - interval + 1)) ++ ".." ++ toString bound

/-- The boundary query string built at line 193: `f"{tags} score:>{INITIAL_BOUND_SCORE}"`. -/
def above_query (tags : String) : String :=
  tags ++ " score:>" ++ toString INITIAL_BOUND_SCORE

/-- The boundary query string built at line 195: `f"{tags} score:<=0"`. -/
def nonpos_query (tags : String) : String :=
  tags ++ " score:<=0"

mutual

/-- Model of `get_post_count(page, tags, is_batched)` (lines 165-179).  Loads the
result page for `tags`; returns `0` when there are no result pages; when
`data_total >= 750` returns `None` (modelled `some none`) if `is_batched`,
otherwise falls into `get_batched_post_count`; below the ceiling returns
`75 * (data_total - 1)` plus the post count of the final page.  The result
also carries the list of queries issued (ghost).  The inner `Option Nat`
is the Python return value, `none` being Python's `None`. -/
def get_post_count (env : Env) : Nat → String → Bool → RunRes (Option Nat × List String)
  | 0, _, _ => .fuelOut
  | fuel+1, tags, is_batched =>
    match env.query tags with
    | none => .timeout
    | some (data_total, page_count) =>
      if data_total = 0 then .ok (some 0, [tags])
      else if 750 ≤ data_total then
        if is_batched then .ok (none, [tags])
        else
          match get_batched_post_count env fuel tags with
          | .fuelOut => .fuelOut
          | .timeout => .timeout
          | .ok r => .ok (some r.count, tags :: r.log)
      else .ok (some (75 * (data_total - 1) + page_count), [tags])

/-- Model of `get_batched_post_count(page, tags)` (lines 181-197): run the
shrink/slide partitioning loop starting from
`bound = interval = 512`, then add the two top-level boundary queries
`score:>512` and `score:<=0`.  The `.ok (none, _)` branches are
unreachable (a non-batched `get_post_count` never returns Python `None`);
they are mapped to `.fuelOut`, the model's stuck outcome. -/
def get_batched_post_count (env : Env) : Nat → String → RunRes BatchResult
  | 0, _ => .fuelOut
  | fuel+1, tags =>
    match batch_loop env fuel tags INITIAL_BOUND_SCORE INITIAL_INTERVAL_SCORE 0 with
    | .fuelOut => .fuelOut
    | .timeout => .timeout
    | .ok (count, ws, loopLog) =>
      match get_post_count env fuel (above_query tags) false with
      | .fuelOut => .fuelOut
      | .timeout => .timeout
      | .ok (none, _) => .fuelOut
      | .ok (some above, aboveLog) =>
        match get_post_count env fuel (nonpos_query tags) false with
        | .fuelOut => .fuelOut
        | .timeout => .timeout
        | .ok (none, _) => .fuelOut
        | .ok (some nonpos, nonposLog) =>
          .ok ⟨count + above + nonpos, ws, above, nonpos, loopLog, aboveLog, nonposLog⟩

/-- The `while bound > 0` loop of `get_batched_post_count` (lines 185-192),
with accumulator `count`.  On truncation (`batch_count == None`) the
interval is halved with Python's floor division (`Int.fdiv`) and the same
bound is retried; on an exact sub-count the count is accumulated and the
bound slides down by the current interval.  Returns the accumulated count,
the list of successful windows `(low, high, sub-count)` (ghost) and the
queries issued (ghost). -/
def batch_loop (env : Env) : Nat → String → Int → Int → Nat →
    RunRes (Nat × List (Int × Int × Nat) × List String)
  | 0, _, _, _, _ => .fuelOut
  | fuel+1, tags, bound, interval, count =>
    if 0 < bound then
      match get_post_count env fuel (batched_query tags bound interval) true with
      | .fuelOut => .fuelOut
      | .timeout => .timeout
      | .ok (none, qlog) =>
        match batch_loop env fuel tags bound (Int.fdiv interval 2) count with
        | .fuelOut => .fuelOut
        | .timeout => .timeout
        | .ok (c, ws, log) => .ok (c, ws, qlog ++ log)
      | .ok (some bc, qlog) =>
        match batch_loop env fuel tags (bound - interval) interval (count + bc) with
        | .fuelOut => .fuelOut
        | .timeout => .timeout
        | .ok (c, ws, log) =>
          .ok (c, (max 1 (bound - interval + 1), bound, bc) :: ws, qlog ++ log)
    else .ok (count, [], [])

end

/-- The date-scoped query built at line 159:
`url_encode_plus(f"{tags} status:any date:{year}_yesteryears_ago")`,
before URL encoding. -/
def year_query_raw (year : Nat) (tags : String) : String :=
  tags ++ " status:any date:" ++ toString year ++ "_yesteryears_ago"

/-- UTF-8 bytes of a character, as `Nat`s (used by the URL encoder). -/
def utf8_bytes (c : Char) : List Nat :=
  let n := c.toNat
  if n < 128 then [n]
  else if n < 2048 then [192 + n / 64, 128 + n % 64]
  else if n < 65536 then [224 + n / 4096, 128 + (n / 64) % 64, 128 + n % 64]
  else [240 + n / 262144, 128 + (n / 4096) % 64, 128 + (n / 64) % 64, 128 + n % 64]

/-- Uppercase hexadecimal digit, for percent-encoding. -/
def hex_digit (n : Nat) : Char :=
  if n < 10 then Char.ofNat (48 + n) else Char.ofNat (55 + n)

/-- Characters `urllib.parse.quote_plus` leaves unencoded (its
always-safe set: ASCII letters, digits, `_.-~`). -/
def url_safe (c : Char) : Bool :=
  c.isAlphanum || c = '_' || c = '.' || c = '-' || c = '~'

/-- Model of `urllib.parse.quote_plus` with default arguments: spaces become `+`,
safe characters pass through, everything else is percent-encoded byte by
byte (UTF-8, uppercase hex). -/
def url_encode_plus (s : String) : String :=
  s.data.foldl (fun acc c =>
    if c = ' ' then acc ++ "+"
    else if url_safe c then acc.push c
    else acc ++ String.join ((utf8_bytes c).map
      (fun b => "%" ++ String.mk [hex_digit (b / 16), hex_digit (b % 16)]))) ""

/-- The encoded per-year query string passed to `get_post_count` by
`get_post_count_for_year` (line 159-160). -/
def year_query (year : Nat) (tags : String) : String :=
  url_encode_plus (year_query_raw year tags)

/-- Model of `get_post_count_for_year(page, year, tags)` (lines 157-163): run
`get_post_count` on the date-scoped query; on a `TimeoutError` anywhere in
that call tree, retry the whole thing.  The retry recursion gets its own
fuel `retries`; each attempt `k` talks to `envs k` (a transient timeout is
modelled by letting successive attempts see different environments) and
uses the same inner fuel `fuel`. -/
def get_post_count_for_year (envs : Nat → Env) :
    Nat → Nat → Nat → String → RunRes (Option Nat × List String)
  | 0, _, _, _ => .fuelOut
  | retries+1, fuel, year, tags =>
    match get_post_count (envs 0) fuel (year_query year tags) false with
    | .timeout => get_post_count_for_year (fun i => envs (i+1)) retries fuel year tags
    | r => r

/-- Python `str.lower()` on the basic-latin range, written structurally
(char-by-char over the string's character list) so that it evaluates by
kernel reduction; extensionally equal to `String.toLower`
(`py_lower_eq_toLower` below). -/
def py_lower (s : String) : String :=
  ⟨s.data.map Char.toLower⟩

/-- A Python dict as read/written by `csv.DictReader`/`DictWriter`: an
ordered association list of column name to value. -/
abbrev Row := List (String × String)

/-- Python `row[k]` as a total lookup: `none` models a `KeyError`. -/
def row_get (r : Row) (k : String) : Option String :=
  (r.find? (fun kv => kv.1 == k)).map (fun kv => kv.2)

/-- Python `list(row.keys())`. -/
def row_keys (r : Row) : List String :=
  r.map (fun kv => kv.1)

/-- Python `row[k] = v`: update in place when the key exists (keeping its
position), append otherwise. -/
def dict_set (r : Row) (k v : String) : Row :=
  if (r.find? (fun kv => kv.1 == k)).isSome then
    r.map (fun kv => if kv.1 == k then (kv.1, v) else kv)
  else r ++ [(k, v)]

/-- The persisted CSV file `e621_tag_count.csv`: one header row and the
data records.  A missing or empty file is modelled as `none` at use sites
(`Option CsvState`). -/
structure CsvState where
  header : List String
  records : List (List String)
deriving DecidableEq, Repr

/-- Model of `csv.DictReader` over the persisted state: each record becomes a dict
pairing the header with the record's fields. -/
def read_rows (st : CsvState) : List Row :=
  st.records.map (fun rec => st.header.zip rec)

/-- Model of `csv.DictWriter.writerow` with the default `extrasaction="raise"`:
fails (`ValueError`, modelled `none`) when the dict contains a key outside
`fieldnames`; otherwise emits the values in `fieldnames` order, using the
default `restval` (written as the empty field) for missing keys. -/
def write_row (fieldnames : List String) (r : Row) : Option (List String) :=
  if (row_keys r).all (fun k => fieldnames.contains k) then
    some (fieldnames.map (fun f => (row_get r f).getD ""))
  else none

/-- The rows `csv.DictReader` yields for an optional store (none = no
file, hence no rows). -/
def rows_of : Option CsvState → List Row
  | none => []
  | some st => read_rows st

/-- One iteration of the read loop of `update_csv_file` (lines 143-149).
The accumulator carries the `data` list (with `none` marking positions
holding the aliased `new_row` object), the current state of the mutable
`new_row` dict, and the `overwrote_row` flag.  A row whose `Tag` field is
unreadable is a `KeyError` (`none`). -/
def upd_step (acc : List (Option Row) × Row × Bool) (row : Row) :
    Option (List (Option Row) × Row × Bool) :=
  match row_get row "Tag", row_get acc.2.1 "Tag" with
  | some t, some nt =>
    if py_lower t = py_lower nt then
      some (acc.1 ++ [none], dict_set acc.2.1 "Tag" t, true)
    else
      some (acc.1 ++ [some row], acc.2.1, acc.2.2)
  | _, _ => none

/-- Model of `update_csv_file(new_row)` (lines 136-155): read the whole table,
replace every record whose `Tag` matches `new_row["Tag"]`
case-insensitively by the (mutated, aliased) `new_row`, append `new_row`
if nothing matched, then rewrite the file under the column set
`list(new_row.keys())`.  `none` models an uncaught exception
(`KeyError` in the loop, `ValueError` from `DictWriter`). -/
def update_csv_file (store : Option CsvState) (new_row : Row) : Option CsvState := do
  let res ← (rows_of store).foldlM upd_step ([], new_row, false)
  let data := res.1.map (fun orow => orow.getD res.2.1)
  let data2 := if res.2.2 then data else data ++ [res.2.1]
  let fieldnames := row_keys res.2.1
  let written ← data2.mapM (write_row fieldnames)
  return ⟨fieldnames, written⟩

/-- The dict comprehension `{tag.lower(): None for tag in tags}` of
`remove_known_tags`: lowercased keys in first-occurrence order. -/
def lower_keys (tags : List String) : List String :=
  tags.foldl (fun acc t => if acc.contains (py_lower t) then acc else acc ++ [py_lower t]) []

/-- One iteration of the reader loop of `remove_known_tags` (lines
105-107): pop the stored record's lowercased `Tag` from the key dict if
present; `none` models the `KeyError` on a record without a readable
`Tag` field. -/
def known_step (ks : List String) (row : Row) : Option (List String) :=
  match row_get row "Tag" with
  | none => none
  | some t => some (if ks.contains (py_lower t) then ks.erase (py_lower t) else ks)

/-- Model of `remove_known_tags(tags)` (lines 99-108): with no persisted file the
input list is returned unchanged; otherwise build the lowercased key dict
and pop every key matching a stored record's `Tag` (case-insensitively),
returning the remaining keys in order. -/
def remove_known_tags (store : Option CsvState) (tags : List String) :
    Option (List String) :=
  match store with
  | none => some tags
  | some st =>
    (read_rows st).foldlM known_step (lower_keys tags)

/-- The year offsets iterated by `print_post_total` (line 128):
`range(18, 0, -1)`, i.e. `[18, 17, ..., 1]`. -/
def year_list : List Nat :=
  (List.range 18).map (fun i => 18 - i)

/-- The `new_row` dict built by `print_post_total` (lines 126-131) for a
query string `tags`, given the per-year counts: key `"Tag"` first, then
one column per year `str(CURRENT_YEAR - year)` for `year` in
`range(18, 0, -1)`, values stringified as the CSV writer will store them. -/
def build_row (counts : Nat → Nat) (tags : String) : Row :=
  ("Tag", tags) :: year_list.map (fun y => (toString (CURRENT_YEAR - y), toString (counts y)))

/-- Python `int()` on a string of ASCII digits. -/
def digits_to_nat (s : String) : Nat :=
  s.data.foldl (fun n c => 10 * n + (c.toNat - 48)) 0

/-- Split a character list on every occurrence of the two-character
separator `..`, scanning left to right (the semantics of Python
`str.split("..")`, used here to mirror the page-range regex). -/
def split_double_dot : List Char → List (List Char)
  | [] => [[]]
  | '.' :: '.' :: rest => [] :: split_double_dot rest
  | c :: rest =>
    match split_double_dot rest with
    | [] => [[c]]
    | h :: t => (c :: h) :: t

/-- The regex `^(\d+)(\.\.(\d+))?$` of `get_tag_names_by_page_range`
(line 62): either one page number or an inclusive range `X..Y`. -/
def parse_page_range (s : String) : Option (Nat × Nat) :=
  match split_double_dot s.data with
  | [a] => if a ≠ [] ∧ a.all Char.isDigit then
      some (digits_to_nat ⟨a⟩, digits_to_nat ⟨a⟩) else none
  | [a, b] => if a ≠ [] ∧ a.all Char.isDigit ∧ b ≠ [] ∧ b.all Char.isDigit then
      some (digits_to_nat ⟨a⟩, digits_to_nat ⟨b⟩) else none
  | _ => none

/-- Model of `get_tag_names_by_page_range(page_range)` (lines 61-71): validate the
page range, then return the tag names scraped from the popularity listing
for pages start..end.  The browser scrape itself is the external `listing`
oracle; `none` models the `Exception` raised on a malformed page range. -/
def get_tag_names_by_page_range (listing : Nat → Nat → List String)
    (page_range : String) : Option (List String) :=
  match parse_page_range page_range with
  | none => none
  | some se => some (listing se.1 se.2)

/-- Model of `get_queries()` (lines 40-59): lowercase every command-line token,
strip `-o`, expand `-p X[..Y]` via the tag listing (the scraped names are
appended without lowercasing), handle `-w` (overwrite: no known-tag
filtering) and `-c` (concatenate into one query), and finally drop
already-recorded tags unless overwriting.  `none` models any uncaught
exception (`IndexError` when `-p` is the last token, the malformed
page-range `Exception`, `KeyError` in `remove_known_tags`). -/
def strip_flag (flag : String) (args : List String) : List String :=
  if args.contains flag then args.erase flag else args

/-- The `-p` handling of `get_queries` (lines 44-48): pop the page range
following the first `-p`, validate and expand it via the tag listing, and
append the scraped names (without lowercasing them).  `none` models the
`IndexError` when `-p` is the last token or the malformed-page-range
`Exception`. -/
def expand_p (listing : Nat → Nat → List String) (args1 : List String) :
    Option (List String) :=
  if args1.contains "-p" then
    let i := args1.indexOf "-p"
    match args1[i+1]? with
    | none => none
    | some page_range =>
      match get_tag_names_by_page_range listing page_range with
      | none => none
      | some names => some (((args1.eraseIdx (i+1)).eraseIdx i) ++ names)
  else some args1

def get_queries (argv : List String) (listing : Nat → Nat → List String)
    (store : Option CsvState) : Option (List String) :=
  match expand_p listing (strip_flag "-o" (argv.map py_lower)) with
  | none => none
  | some args2 =>
    let skip := !(args2.contains "-w")
    let args3 := strip_flag "-w" args2
    let cFlag := args3.contains "-c"
    let args4 := strip_flag "-c" args3
    if cFlag && !args4.isEmpty then some [String.intercalate " " args4]
    else if skip then remove_known_tags store args4
    else some args4

/-- One run of the Known-Tag Filter followed by the Result Store upserts:
filter the tag list against the store, then for each surviving query
string build its row (from the deterministic per-tag year counts) and
upsert it, threading the store.  The outer `none` models an uncaught
exception; the inner `Option CsvState` is the store afterwards (`none`
only when no write ever happened and no file existed). -/
def run_filter_upsert (counts : String → Nat → Nat) (store : Option CsvState)
    (tags : List String) : Option (Option CsvState) :=
  match remove_known_tags store tags with
  | none => none
  | some filtered =>
    filtered.foldlM
      (fun st t => (update_csv_file st (build_row (counts t) t)).map some) store

/-- Projection of a `batch_loop` outcome that forgets the ghost query log,
leaving the accumulated count and the successful windows. -/
def strip_log : RunRes (Nat × List (Int × Int × Nat) × List String) →
    RunRes (Nat × List (Int × Int × Nat))
  | .fuelOut => .fuelOut
  | .timeout => .timeout
  | .ok (c, ws, _) => .ok (c, ws)

/-- Whether the recorded score window `w = (low, high, count)` contains the
score `s`. -/
def window_hits (w : Int × Int × Nat) (s : Int) : Bool :=
  decide (w.1 ≤ s) && decide (s ≤ w.2.1)

/-- How many of the recorded windows contain the score `s`. -/
def window_count (ws : List (Int × Int × Nat)) (s : Int) : Nat :=
  ws.countP (fun w => window_hits w s)

/-- Sum of the sub-counts of the recorded windows. -/
def window_sum (ws : List (Int × Int × Nat)) : Nat :=
  (ws.map (fun w => w.2.2)).sum

/-- The number of posts with score in `[lo, hi]`, for a post-score
distribution `f` supported inside the finite set `S`. -/
def range_total (f : Int → Nat) (S : Finset Int) (lo hi : Int) : Nat :=
  ∑ s in S.filter (fun s => lo ≤ s ∧ s ≤ hi), f s

/-- A Search Client that reports truncation (750 result pages) for every
query: even a width-1 score window stays over the enumeration ceiling. -/
def env_all_truncated : Env := ⟨fun _ => some (750, 0)⟩

/-- The concrete scenario client from the spec: the score window `[1, 512]`
truncates, the halves `[257, 512]` and `[1, 256]` answer exactly, and the
two boundary queries answer exactly. -/
def env_c3 : Env := ⟨fun q =>
  if q = "t score:1..512" then some (750, 0)
  else if q = "t score:257..512" then some (2, 30)
  else if q = "t score:1..256" then some (1, 40)
  else if q = "t score:>512" then some (1, 7)
  else if q = "t score:<=0" then some (0, 0)
  else none⟩

/-- A client for which the partitioning loop succeeds at once but the
`score:>512` boundary query itself truncates (900 pages); the nested
partitioning of the boundary expression then answers exactly. -/
def env_c5 : Env := ⟨fun q =>
  if q = "t score:1..512" then some (2, 5)
  else if q = "t score:>512" then some (900, 0)
  else if q = "t score:>512 score:1..512" then some (3, 10)
  else if q = "t score:>512 score:>512" then some (1, 4)
  else if q = "t score:>512 score:<=0" then some (0, 0)
  else if q = "t score:<=0" then some (1, 2)
  else none⟩

/-- A client that reports 3 result pages with 12 posts on the last page
for the year-1 "wolf" query. -/
def env_c4 : Env := ⟨fun q =>
  if q = year_query 1 "wolf" then some (3, 12) else none⟩

/-- A client whose every page load times out. -/
def env_timeout : Env := ⟨fun _ => none⟩

/-- The post-score distribution matching `env_c3`: 105 posts at score 300,
40 at score 100, 7 at score 600. -/
def f_c1 : Int → Nat := fun s =>
  if s = 300 then 105 else if s = 100 then 40 else if s = 600 then 7 else 0

/-- The support of `f_c1`. -/
def S_c1 : Finset Int := {100, 300, 600}

/-- The ghost-instrumented result of `get_batched_post_count env_c3 20 "t"`. -/
def r_c3 : BatchResult :=
  ⟨152, [(257, 512, 105), (1, 256, 40)], 7, 0,
    ["t score:1..512", "t score:257..512", "t score:1..256"],
    ["t score:>512"], ["t score:<=0"]⟩

/-- The ghost-instrumented result of `get_batched_post_count env_c5 20 "t"`. -/
def r_c5 : BatchResult :=
  ⟨246, [(1, 512, 80)], 164, 2, ["t score:1..512"],
    ["t score:>512", "t score:>512 score:1..512", "t score:>512 score:>512",
      "t score:>512 score:<=0"], ["t score:<=0"]⟩

/-- The values of a run's year columns, in column order. -/
def year_values (counts : Nat → Nat) : List String :=
  year_list.map (fun y => toString (counts y))

/-- The column set the CSV rewrite uses: `list(new_row.keys())`, i.e.
`Tag` followed by the current run's year columns. -/
def csv_fieldnames : List String :=
  "Tag" :: year_list.map (fun y => toString (CURRENT_YEAR - y))

/-- The constant-zero per-year counts, for concrete test fixtures. -/
def counts_zero : Nat → Nat := fun _ => 0

/-- A one-record store holding tag `fox` with a 2024 count. -/
def st_c6 : CsvState := ⟨["Tag", "2024"], [["fox", "1"]]⟩

/-- The store after upserting `Fox` with zero counts over `st_c6`. -/
def st_c6' : CsvState := ⟨csv_fieldnames, ["fox" :: year_values counts_zero]⟩

/-- A store whose record carries a year column (`2006`) outside the
current run's schema. -/
def st_c7 : CsvState := ⟨["Tag", "2006"], [["cat", "7"]]⟩

/-- A store whose columns all lie inside the current run's schema. -/
def st_c7b : CsvState := ⟨["Tag", "2024"], [["cat", "7"]]⟩

/-- Some record of the store has the given lowercased tag text. -/
def HasTagL (st : CsvState) (l : String) : Prop :=
  ∃ row ∈ read_rows st, ∃ t, row_get row "Tag" = some t ∧ py_lower t = l

/-- Lift of `HasTagL` to an optional store (no file: no tags). -/
def HasTagLO : Option CsvState → String → Prop
  | none, _ => False
  | some st, l => HasTagL st l

/-- Every record of the store has a readable `Tag` field. -/
def ReadOK (st : CsvState) : Prop :=
  ∀ row ∈ read_rows st, ∃ t, row_get row "Tag" = some t

/-! ### Theorems -/

theorem char_toLower_idem (c : Char) : c.toLower.toLower = c.toLower := by
  simp only [Char.toLower]
  by_cases h : c.toNat ≥ 65 ∧ c.toNat ≤ 90
  · rw [if_pos h]
    have hv : (c.toNat + 32).isValidChar := Or.inl (by omega)
    have ht : (Char.ofNat (c.toNat + 32)).toNat = c.toNat + 32 := by
      rw [Char.ofNat, dif_pos hv]; rfl
    rw [if_neg]
    rw [ht]
    omega
  · rw [if_neg h, if_neg h]

theorem py_lower_eq_toLower (s : String) : py_lower s = s.toLower := by
  rw [String.toLower, String.map_eq, py_lower]

theorem py_lower_idem (s : String) : py_lower (py_lower s) = py_lower s := by
  simp only [py_lower, List.map_map]
  congr 1
  apply List.map_congr_left
  intro c _
  exact char_toLower_idem c

theorem py_lower_append (a b : String) :
    py_lower (a ++ b) = py_lower a ++ py_lower b := by
  simp only [py_lower]
  apply congrArg String.mk
  simp [String.data_append]

theorem batch_loop_all_truncated (fuel : Nat) :
    ∀ tags bound interval count, 0 < bound →
      batch_loop env_all_truncated fuel tags bound interval count = .fuelOut := by
  induction fuel with
  | zero => intro tags bound interval count _; rfl
  | succ fuel ih =>
    intro tags bound interval count h
    rw [batch_loop, if_pos h]
    cases fuel with
    | zero => rfl
    | succ g =>
      have hq : get_post_count env_all_truncated (g+1)
          (batched_query tags bound interval) true
          = .ok (none, [batched_query tags bound interval]) := by
        rw [get_post_count]; rfl
      rw [hq, ih tags bound (Int.fdiv interval 2) count h]

theorem batch_loop_no_ok_nonpos (env : Env) (fuel : Nat) :
    ∀ (tags : String) (bound interval : Int) (count : Nat) res,
    0 < bound → interval ≤ 0 →
    batch_loop env fuel tags bound interval count ≠ .ok res := by
  induction fuel with
  | zero => intro tags bound interval count res _ _ h; exact absurd h (by simp [batch_loop])
  | succ fuel ih =>
    intro tags bound interval count res hb hi h
    rw [batch_loop, if_pos hb] at h
    cases hg : get_post_count env fuel (batched_query tags bound interval) true with
    | fuelOut => rw [hg] at h; exact absurd h (by simp)
    | timeout => rw [hg] at h; exact absurd h (by simp)
    | ok v =>
      rw [hg] at h
      rcases v with ⟨obc, qlog⟩
      cases obc with
      | none =>
        dsimp only at h
        cases hrec : batch_loop env fuel tags bound (Int.fdiv interval 2) count with
        | fuelOut => rw [hrec] at h; exact absurd h (by simp)
        | timeout => rw [hrec] at h; exact absurd h (by simp)
        | ok v2 =>
          have hfd : Int.fdiv interval 2 ≤ 0 := by
            rcases lt_or_eq_of_le hi with hlt | heq
            · exact le_of_lt (Int.fdiv_neg' hlt (by decide))
            · rw [heq]; decide
          exact absurd hrec (ih tags bound (Int.fdiv interval 2) count v2 hb hfd)
      | some bc =>
        dsimp only at h
        cases hrec : batch_loop env fuel tags (bound - interval) interval (count + bc) with
        | fuelOut => rw [hrec] at h; exact absurd h (by simp)
        | timeout => rw [hrec] at h; exact absurd h (by simp)
        | ok v2 =>
          exact absurd hrec (ih tags (bound - interval) interval (count + bc) v2 (by omega) hi)

theorem batch_loop_invariant (env : Env) (fuel : Nat) :
    ∀ (tags : String) (bound interval : Int) (count total : Nat)
      (ws : List (Int × Int × Nat)) (log : List String),
    batch_loop env fuel tags bound interval count = .ok (total, ws, log) →
    total = count + window_sum ws ∧
    ∀ s : Int, window_count ws s = if 1 ≤ s ∧ s ≤ bound then 1 else 0 := by
  induction fuel with
  | zero => intro tags bound interval count total ws log h; exact absurd h (by simp [batch_loop])
  | succ fuel ih =>
    intro tags bound interval count total ws log h
    rw [batch_loop] at h
    by_cases hb : 0 < bound
    · rw [if_pos hb] at h
      cases hg : get_post_count env fuel (batched_query tags bound interval) true with
      | fuelOut => rw [hg] at h; exact absurd h (by simp)
      | timeout => rw [hg] at h; exact absurd h (by simp)
      | ok v =>
        rw [hg] at h
        rcases v with ⟨obc, qlog⟩
        cases obc with
        | none =>
          dsimp only at h
          cases hrec : batch_loop env fuel tags bound (Int.fdiv interval 2) count with
          | fuelOut => rw [hrec] at h; exact absurd h (by simp)
          | timeout => rw [hrec] at h; exact absurd h (by simp)
          | ok v2 =>
            rcases v2 with ⟨c, ws2, log2⟩
            rw [hrec] at h
            simp only [RunRes.ok.injEq, Prod.mk.injEq] at h
            obtain ⟨h1, h2, h3⟩ := h
            subst h1; subst h2
            exact ih tags bound (Int.fdiv interval 2) count _ _ _ hrec
        | some bc =>
          dsimp only at h
          cases hrec : batch_loop env fuel tags (bound - interval) interval (count + bc) with
          | fuelOut => rw [hrec] at h; exact absurd h (by simp)
          | timeout => rw [hrec] at h; exact absurd h (by simp)
          | ok v2 =>
            rcases v2 with ⟨c, ws2, log2⟩
            rw [hrec] at h
            simp only [RunRes.ok.injEq, Prod.mk.injEq] at h
            obtain ⟨h1, h2, h3⟩ := h
            subst h1; subst h2
            obtain ⟨ihs, ihc⟩ := ih tags (bound - interval) interval (count + bc) _ _ _ hrec
            constructor
            · simp only [window_sum, List.map_cons, List.sum_cons] at *
              omega
            · intro s
              by_cases hint : 0 < interval
              · simp only [window_count, List.countP_cons] at *
                rw [ihc s]
                simp only [window_hits, Bool.and_eq_true, decide_eq_true_eq,
                  decide_eq_true_iff, sup_le_iff]
                split_ifs <;> omega
              · exact absurd hrec (batch_loop_no_ok_nonpos env fuel tags
                  (bound - interval) interval (count + bc) _ (by omega) (by omega))
    · rw [if_neg hb] at h
      simp only [RunRes.ok.injEq, Prod.mk.injEq] at h
      obtain ⟨h1, h2, h3⟩ := h
      subst h1; subst h2
      refine ⟨by simp [window_sum], fun s => ?_⟩
      rw [if_neg (by omega)]
      simp [window_count]

theorem window_sum_exact (f : Int → Nat) (S : Finset Int) :
    ∀ ws : List (Int × Int × Nat),
    (∀ lo hi c, (lo, hi, c) ∈ ws → c = range_total f S lo hi) →
    window_sum ws = ∑ s in S, window_count ws s * f s := by
  intro ws
  induction ws with
  | nil => intro _; simp [window_sum, window_count]
  | cons w ws ih =>
    intro hex
    rcases w with ⟨lo, hi, c⟩
    have hc : c = range_total f S lo hi := hex lo hi c (List.mem_cons_self _ _)
    have ih2 := ih (fun lo2 hi2 c2 hm => hex lo2 hi2 c2 (List.mem_cons_of_mem _ hm))
    simp only [window_sum, List.map_cons, List.sum_cons] at *
    have key : ∑ s in S, window_count ((lo, hi, c) :: ws) s * f s =
        (∑ s in S, window_count ws s * f s) + range_total f S lo hi := by
      have hpt : ∀ s ∈ S, window_count ((lo, hi, c) :: ws) s * f s =
          window_count ws s * f s + (if lo ≤ s ∧ s ≤ hi then f s else 0) := by
        intro s _
        simp only [window_count, List.countP_cons, window_hits, Bool.and_eq_true,
          decide_eq_true_eq, add_mul]
        split_ifs <;> simp
      rw [Finset.sum_congr rfl hpt, Finset.sum_add_distrib, range_total, Finset.sum_filter]
    rw [key, ih2, hc]
    exact Nat.add_comm _ _

theorem get_batched_ok_elim (env : Env) (fuel : Nat) (tags : String) (r : BatchResult)
    (h : get_batched_post_count env fuel tags = .ok r) :
    ∃ fuel2 loopTotal,
      batch_loop env fuel2 tags INITIAL_BOUND_SCORE INITIAL_INTERVAL_SCORE 0 =
        .ok (loopTotal, r.windows, r.loopLog) ∧
      r.count = loopTotal + r.above + r.nonpos ∧
      get_post_count env fuel2 (above_query tags) false = .ok (some r.above, r.aboveLog) ∧
      get_post_count env fuel2 (nonpos_query tags) false = .ok (some r.nonpos, r.nonposLog) := by
  cases fuel with
  | zero => exact absurd h (by simp [get_batched_post_count])
  | succ fuel =>
    rw [get_batched_post_count] at h
    cases hl : batch_loop env fuel tags INITIAL_BOUND_SCORE INITIAL_INTERVAL_SCORE 0 with
    | fuelOut => rw [hl] at h; exact absurd h (by simp)
    | timeout => rw [hl] at h; exact absurd h (by simp)
    | ok v =>
      rw [hl] at h
      rcases v with ⟨count, ws, loopLog⟩
      dsimp only at h
      cases ha : get_post_count env fuel (above_query tags) false with
      | fuelOut => rw [ha] at h; exact absurd h (by simp)
      | timeout => rw [ha] at h; exact absurd h (by simp)
      | ok va =>
        rw [ha] at h
        rcases va with ⟨oa, aboveLog⟩
        cases oa with
        | none => exact absurd h (by simp)
        | some above =>
          dsimp only at h
          cases hn : get_post_count env fuel (nonpos_query tags) false with
          | fuelOut => rw [hn] at h; exact absurd h (by simp)
          | timeout => rw [hn] at h; exact absurd h (by simp)
          | ok vn =>
            rw [hn] at h
            rcases vn with ⟨on_, nonposLog⟩
            cases on_ with
            | none => exact absurd h (by simp)
            | some nonpos =>
              dsimp only at h
              simp only [RunRes.ok.injEq] at h
              subst h
              exact ⟨fuel, count, hl, rfl, ha, hn⟩

theorem get_post_count_top_truncated (env : Env) (fuel : Nat) (q : String)
    (dt pc : Nat) (v : Option Nat) (log : List String)
    (hq : env.query q = some (dt, pc)) (hdt : 750 ≤ dt)
    (h : get_post_count env fuel q false = .ok (v, log)) :
    ∃ fuel2 r2, get_batched_post_count env fuel2 q = .ok r2 ∧
      v = some r2.count ∧ log = q :: r2.log := by
  cases fuel with
  | zero => exact absurd h (by simp [get_post_count])
  | succ fuel =>
    have hgoal : get_post_count env (fuel+1) q false =
        match get_batched_post_count env fuel q with
        | .fuelOut => .fuelOut
        | .timeout => .timeout
        | .ok r => .ok (some r.count, q :: r.log) := by
      simp only [get_post_count, hq]
      rw [if_neg (by omega : ¬ dt = 0), if_pos hdt]
      rfl
    rw [hgoal] at h
    cases hb : get_batched_post_count env fuel q with
    | fuelOut => rw [hb] at h; exact absurd h (by simp)
    | timeout => rw [hb] at h; exact absurd h (by simp)
    | ok r2 =>
      rw [hb] at h
      simp only [RunRes.ok.injEq, Prod.mk.injEq] at h
      exact ⟨fuel, r2, hb, h.1.symm, h.2.symm⟩

theorem get_post_count_log_head (env : Env) (fuel : Nat) (q : String) (b : Bool)
    (v : Option Nat) (log : List String)
    (h : get_post_count env fuel q b = .ok (v, log)) :
    log.head? = some q := by
  cases fuel with
  | zero => exact absurd h (by simp [get_post_count])
  | succ fuel =>
    cases hq : env.query q with
    | none =>
      rw [show get_post_count env (fuel+1) q b = .timeout from by
        simp only [get_post_count, hq]] at h
      exact absurd h (by simp)
    | some p =>
      rcases p with ⟨dt, pc⟩
      by_cases h0 : dt = 0
      · rw [show get_post_count env (fuel+1) q b = .ok (some 0, [q]) from by
          simp only [get_post_count, hq, if_pos h0]] at h
        simp only [RunRes.ok.injEq, Prod.mk.injEq] at h
        rw [← h.2]; rfl
      · by_cases h750 : 750 ≤ dt
        · cases b with
          | true =>
            rw [show get_post_count env (fuel+1) q true = .ok (none, [q]) from by
              simp only [get_post_count, hq]
              rw [if_neg h0, if_pos h750]
              rfl] at h
            simp only [RunRes.ok.injEq, Prod.mk.injEq] at h
            rw [← h.2]; rfl
          | false =>
            rw [show get_post_count env (fuel+1) q false =
                (match get_batched_post_count env fuel q with
                 | .fuelOut => .fuelOut
                 | .timeout => .timeout
                 | .ok r => .ok (some r.count, q :: r.log)) from by
              simp only [get_post_count, hq]
              rw [if_neg h0, if_pos h750]
              rfl] at h
            cases hb : get_batched_post_count env fuel q with
            | fuelOut => rw [hb] at h; exact absurd h (by simp)
            | timeout => rw [hb] at h; exact absurd h (by simp)
            | ok r2 =>
              rw [hb] at h
              simp only [RunRes.ok.injEq, Prod.mk.injEq] at h
              rw [← h.2]; rfl
        · rw [show get_post_count env (fuel+1) q b =
              .ok (some (75 * (dt - 1) + pc), [q]) from by
            simp only [get_post_count, hq]
            rw [if_neg h0, if_neg h750]] at h
          simp only [RunRes.ok.injEq, Prod.mk.injEq] at h
          rw [← h.2]; rfl

/-- C1: Whenever a full partitioning pass terminates normally, the score
windows it queried cover the integers `1..512` exactly once (no gap, no
overlap), everything above 512 and everything at or below 0 being left to
the two boundary queries; the returned total is the sum of the window
sub-counts plus the two boundary counts, and it equals the true count of
the unpartitioned expression whenever every sub-query returned the exact
sub-count of a finitely supported post-score distribution. -/
theorem c1_partition_coverage_and_sum (env : Env) (fuel : Nat) (tags : String)
    (r : BatchResult) (f : Int → Nat) (S : Finset Int)
    (h : get_batched_post_count env fuel tags = .ok r) :
    (∀ s : Int, window_count r.windows s =
        if 1 ≤ s ∧ s ≤ INITIAL_BOUND_SCORE then 1 else 0) ∧
    r.count = window_sum r.windows + r.above + r.nonpos ∧
    ((∀ lo hi c, (lo, hi, c) ∈ r.windows → c = range_total f S lo hi) →
      r.above = ∑ s in S.filter (fun s => INITIAL_BOUND_SCORE < s), f s →
      r.nonpos = ∑ s in S.filter (fun s => s ≤ 0), f s →
      (∀ s ∉ S, f s = 0) →
      r.count = ∑ s in S, f s) := by
  obtain ⟨fuel2, loopTotal, hl, hcnt, ha, hn⟩ := get_batched_ok_elim env fuel tags r h
  obtain ⟨hsum, hcov⟩ := batch_loop_invariant env fuel2 tags INITIAL_BOUND_SCORE
    INITIAL_INTERVAL_SCORE 0 loopTotal r.windows r.loopLog hl
  refine ⟨hcov, by omega, ?_⟩
  intro hex hab hnp _
  have hws : window_sum r.windows =
      ∑ s in S.filter (fun s => 1 ≤ s ∧ s ≤ INITIAL_BOUND_SCORE), f s := by
    rw [window_sum_exact f S r.windows hex, Finset.sum_filter]
    apply Finset.sum_congr rfl
    intro s _
    rw [hcov s]
    split_ifs <;> simp
  have hsplit : ∑ s in S, f s =
      (∑ s in S.filter (fun s => s ≤ 0), f s) +
      ((∑ s in S.filter (fun s => 1 ≤ s ∧ s ≤ INITIAL_BOUND_SCORE), f s) +
       (∑ s in S.filter (fun s => INITIAL_BOUND_SCORE < s), f s)) := by
    rw [← Finset.sum_filter_add_sum_filter_not S (fun s => s ≤ 0) f]
    congr 1
    rw [← Finset.sum_filter_add_sum_filter_not (S.filter (fun s => ¬ s ≤ 0))
      (fun s => s ≤ INITIAL_BOUND_SCORE) f]
    rw [Finset.filter_filter, Finset.filter_filter]
    congr 1
    · apply Finset.sum_congr _ (fun _ _ => rfl)
      apply Finset.filter_congr
      intro s _
      simp only [INITIAL_BOUND_SCORE]
      constructor
      · intro hs; exact ⟨by omega, hs.2⟩
      · intro hs; exact ⟨by omega, hs.2⟩
    · apply Finset.sum_congr _ (fun _ _ => rfl)
      apply Finset.filter_congr
      intro s _
      simp only [INITIAL_BOUND_SCORE]
      constructor
      · intro hs; omega
      · intro hs; constructor <;> omega
  omega

theorem c1_witness : r_c3.count = ∑ s in S_c1, f_c1 s := by
  have hmain := c1_partition_coverage_and_sum env_c3 20 "t" r_c3 f_c1 S_c1 (by rfl)
  apply hmain.2.2
  · intro lo hi c hm
    rcases List.mem_cons.mp hm with h1 | hm2
    · simp only [Prod.mk.injEq] at h1
      obtain ⟨rfl, rfl, rfl⟩ := h1
      decide
    · rcases List.mem_cons.mp hm2 with h2 | h3
      · simp only [Prod.mk.injEq] at h2
        obtain ⟨rfl, rfl, rfl⟩ := h2
        decide
      · exact absurd h3 (by simp)
  · decide
  · decide
  · intro s hs
    simp only [f_c1]
    split_ifs with h1 h2 h3
    · exact absurd (by rw [h1]; decide) hs
    · exact absurd (by rw [h2]; decide) hs
    · exact absurd (by rw [h3]; decide) hs
    · rfl

/-- C2: The code has no guard for the interval reaching zero: against a
client for which even width-1 windows truncate, the partitioning routine
never terminates at all — at every fuel bound the model runs out of fuel,
so the Python code loops forever instead of surfacing the degenerate
partition as an unrecoverable error. -/
theorem c2_degenerate_partition_loops_forever :
    ∀ fuel tags, get_batched_post_count env_all_truncated fuel tags = .fuelOut := by
  intro fuel tags
  cases fuel with
  | zero => rfl
  | succ g =>
    rw [get_batched_post_count,
      batch_loop_all_truncated g tags INITIAL_BOUND_SCORE INITIAL_INTERVAL_SCORE 0 (by decide)]

/-- C3: In the partitioning loop, a truncation signal halves the interval
by floor integer division and retries the same upper bound, while an exact
sub-count is accumulated and slides the bound down by the current
(possibly already shrunk) interval; in the concrete spec scenario —
truncation on `[1,512]`, exact answers on `[257,512]` and `[1,256]` — the
pass queries `[1,512]`, `[257,512]`, `[1,256]` in that order and never
requeries `[1,512]`. -/
theorem c3_shrink_and_slide :
    (∀ (env : Env) (fuel : Nat) (tags : String) (bound interval : Int) (count dt pc : Nat),
      0 < bound →
      env.query (batched_query tags bound interval) = some (dt, pc) →
      750 ≤ dt →
      strip_log (batch_loop env (fuel+2) tags bound interval count) =
        strip_log (batch_loop env (fuel+1) tags bound (Int.fdiv interval 2) count)) ∧
    (∀ (env : Env) (fuel : Nat) (tags : String) (bound interval : Int) (count dt pc : Nat),
      0 < bound →
      env.query (batched_query tags bound interval) = some (dt, pc) →
      dt < 750 →
      strip_log (batch_loop env (fuel+2) tags bound interval count) =
        (match strip_log (batch_loop env (fuel+1) tags (bound - interval) interval
            (count + (if dt = 0 then 0 else 75 * (dt - 1) + pc))) with
         | .fuelOut => .fuelOut
         | .timeout => .timeout
         | .ok (c, ws) =>
           .ok (c, (max 1 (bound - interval + 1), bound,
             (if dt = 0 then 0 else 75 * (dt - 1) + pc)) :: ws))) ∧
    get_batched_post_count env_c3 20 "t" = .ok r_c3 := by
  refine ⟨?_, ?_, ?_⟩
  · intro env fuel tags bound interval count dt pc hb hq hdt
    have hg : get_post_count env (fuel+1) (batched_query tags bound interval) true
        = .ok (none, [batched_query tags bound interval]) := by
      simp only [get_post_count, hq]
      rw [if_neg (by omega : ¬ dt = 0), if_pos hdt]
      rfl
    rw [show fuel + 2 = (fuel + 1) + 1 from rfl, batch_loop, if_pos hb, hg]
    dsimp only
    cases hrec : batch_loop env (fuel+1) tags bound (Int.fdiv interval 2) count with
    | fuelOut => rfl
    | timeout => rfl
    | ok v => rcases v with ⟨c, ws, log⟩; rfl
  · intro env fuel tags bound interval count dt pc hb hq hdt
    have hg : get_post_count env (fuel+1) (batched_query tags bound interval) true
        = .ok (some (if dt = 0 then 0 else 75 * (dt - 1) + pc),
            [batched_query tags bound interval]) := by
      by_cases h0 : dt = 0
      · simp only [get_post_count, hq, if_pos h0]
      · simp only [get_post_count, hq]
        rw [if_neg h0, if_neg (by omega : ¬ 750 ≤ dt), if_neg h0]
    rw [show fuel + 2 = (fuel + 1) + 1 from rfl, batch_loop, if_pos hb, hg]
    dsimp only
    cases hrec : batch_loop env (fuel+1) tags (bound - interval) interval
        (count + (if dt = 0 then 0 else 75 * (dt - 1) + pc)) with
    | fuelOut => rfl
    | timeout => rfl
    | ok v => rcases v with ⟨c, ws, log⟩; rfl
  · rfl

theorem c3_witness :
    strip_log (batch_loop env_c3 3 "t" 512 512 0) =
      strip_log (batch_loop env_c3 2 "t" 512 (Int.fdiv 512 2) 0) :=
  c3_shrink_and_slide.1 env_c3 1 "t" 512 512 0 750 0 (by decide) (by rfl) (by decide)

/-- C4: For a year query whose result set stays below the enumeration
ceiling (the client reports fewer than 750 result pages),
`get_post_count_for_year` returns exactly the client's exact count, and
the only query issued is the year query itself — the partitioning routine
is never invoked. -/
theorem c4_below_ceiling_exact (envs : Nat → Env) (r fuel year : Nat) (tags : String)
    (dt pc : Nat)
    (hq : (envs 0).query (year_query year tags) = some (dt, pc))
    (hdt : dt < 750) :
    get_post_count_for_year envs (r+1) (fuel+1) year tags =
      .ok (some (if dt = 0 then 0 else 75 * (dt - 1) + pc), [year_query year tags]) := by
  have hg : get_post_count (envs 0) (fuel+1) (year_query year tags) false
      = .ok (some (if dt = 0 then 0 else 75 * (dt - 1) + pc), [year_query year tags]) := by
    by_cases h0 : dt = 0
    · simp only [get_post_count, hq, if_pos h0]
    · simp only [get_post_count, hq]
      rw [if_neg h0, if_neg (by omega : ¬ 750 ≤ dt), if_neg h0]
  rw [get_post_count_for_year, hg]

theorem c4_witness :
    get_post_count_for_year (fun _ => env_c4) 1 1 1 "wolf" =
      .ok (some (if 3 = 0 then 0 else 75 * (3 - 1) + 12), [year_query 1 "wolf"]) :=
  c4_below_ceiling_exact (fun _ => env_c4) 0 0 1 "wolf" 3 12 (by rfl) (by decide)

/-- C5 (amended): After the partitioning loop, exactly two boundary
queries are issued, `score:>512` then `score:<=0`, each as a top-level
non-batched call (each boundary trace starts with exactly that query
string, and the full trace is the loop trace followed by the two boundary
traces); but when a boundary query truncates, its result is NOT returned
as-is: the code recursively partitions the boundary expression itself via
`get_batched_post_count`, and the boundary count and trace are those of
that nested partitioned run. -/
theorem c5_boundary_handling (env : Env) (fuel : Nat) (tags : String) (r : BatchResult)
    (h : get_batched_post_count env fuel tags = .ok r) :
    r.log = r.loopLog ++ r.aboveLog ++ r.nonposLog ∧
    r.aboveLog.head? = some (above_query tags) ∧
    r.nonposLog.head? = some (nonpos_query tags) ∧
    (∀ dt pc, env.query (above_query tags) = some (dt, pc) → 750 ≤ dt →
      ∃ fuel2 r2, get_batched_post_count env fuel2 (above_query tags) = .ok r2 ∧
        r.above = r2.count ∧ r.aboveLog = above_query tags :: r2.log) ∧
    (∀ dt pc, env.query (nonpos_query tags) = some (dt, pc) → 750 ≤ dt →
      ∃ fuel2 r2, get_batched_post_count env fuel2 (nonpos_query tags) = .ok r2 ∧
        r.nonpos = r2.count ∧ r.nonposLog = nonpos_query tags :: r2.log) := by
  obtain ⟨fuel2, loopTotal, hl, hcnt, ha, hn⟩ := get_batched_ok_elim env fuel tags r h
  refine ⟨rfl, get_post_count_log_head env fuel2 _ false _ _ ha,
    get_post_count_log_head env fuel2 _ false _ _ hn, ?_, ?_⟩
  · intro dt pc hq hdt
    obtain ⟨f2, r2, hb, hv, hlog⟩ := get_post_count_top_truncated env fuel2 _ dt pc _ _ hq hdt ha
    exact ⟨f2, r2, hb, by injection hv, hlog⟩
  · intro dt pc hq hdt
    obtain ⟨f2, r2, hb, hv, hlog⟩ := get_post_count_top_truncated env fuel2 _ dt pc _ _ hq hdt hn
    exact ⟨f2, r2, hb, by injection hv, hlog⟩

theorem c5_counterexample :
    get_batched_post_count env_c5 20 "t" = .ok r_c5 ∧
    ¬ (r_c5.aboveLog = [above_query "t"]) ∧
    batched_query (above_query "t") 512 512 ∈ r_c5.log := by
  refine ⟨rfl, by decide, by decide⟩

theorem c5_witness :
    ∃ fuel2 r2, get_batched_post_count env_c5 fuel2 (above_query "t") = .ok r2 ∧
      (r_c5.above = r2.count) ∧ (r_c5.aboveLog = above_query "t" :: r2.log) :=
  (c5_boundary_handling env_c5 20 "t" r_c5 (by rfl)).2.2.2.1 900 0 (by rfl) (by decide)

/-- C9: The year counter retries the whole counting operation on a
timeout, with no bound on the number of attempts: for every number `n` of
initial attempts that time out anywhere in their call tree, if attempt
`n` completes with a count, `get_post_count_for_year` returns exactly that
count (and that trace), as if no timeout had occurred; the timeout never
surfaces. -/
theorem c9_unbounded_retry (n : Nat) :
    ∀ (envs : Nat → Env) (fuel year : Nat) (tags : String) (v : Option Nat × List String),
    (∀ k, k < n → get_post_count (envs k) fuel (year_query year tags) false = .timeout) →
    get_post_count (envs n) fuel (year_query year tags) false = .ok v →
    get_post_count_for_year envs (n+1) fuel year tags = .ok v := by
  induction n with
  | zero =>
    intro envs fuel year tags v _ hok
    rw [get_post_count_for_year, hok]
  | succ n ih =>
    intro envs fuel year tags v htime hok
    rw [get_post_count_for_year, htime 0 (by omega)]
    exact ih (fun i => envs (i+1)) fuel year tags v
      (fun k hk => htime (k+1) (by omega)) hok

theorem c9_witness :
    get_post_count_for_year
      (fun i => if i < 2 then env_timeout else env_c4) 3 1 1 "wolf" =
      .ok (some (75 * 2 + 12), [year_query 1 "wolf"]) :=
  c9_unbounded_retry 2 (fun i => if i < 2 then env_timeout else env_c4) 1 1 "wolf"
    (some (75 * 2 + 12), [year_query 1 "wolf"])
    (fun k hk => by interval_cases k <;> rfl)
    (by rfl)


theorem option_mapM_eq_map (f : α → Option β) (g : α → β) (l : List α)
    (h : ∀ x ∈ l, f x = some (g x)) : l.mapM f = some (l.map g) := by
  induction l with
  | nil => rfl
  | cons a l ih =>
    rw [List.mapM_cons, h a (List.mem_cons_self _ _),
      ih (fun x hx => h x (List.mem_cons_of_mem _ hx))]
    rfl

theorem option_mapM_none (f : α → Option β) (l : List α) (x : α)
    (hx : x ∈ l) (hf : f x = none) : l.mapM f = none := by
  induction l with
  | nil => exact absurd hx (by simp)
  | cons a l ih =>
    rw [List.mapM_cons]
    rcases List.mem_cons.mp hx with rfl | hx2
    · rw [hf]; rfl
    · cases hfa : f a with
      | none => rfl
      | some b => rw [ih hx2]; rfl

theorem upd_step_nomatch (data : List (Option Row)) (nr : Row) (ov : Bool)
    (row : Row) (t u : String)
    (hrow : row_get row "Tag" = some t)
    (hnr : row_get nr "Tag" = some u)
    (hne : py_lower t ≠ py_lower u) :
    upd_step (data, nr, ov) row = some (data ++ [some row], nr, ov) := by
  simp only [upd_step, hrow, hnr]
  rw [if_neg hne]

theorem upd_fold_nomatch (L : String) :
    ∀ (rows : List Row) (data : List (Option Row)) (nr : Row) (ov : Bool) (u : String),
    row_get nr "Tag" = some u → py_lower u = L →
    (∀ row ∈ rows, ∃ t, row_get row "Tag" = some t ∧ py_lower t ≠ L) →
    rows.foldlM upd_step (data, nr, ov) = some (data ++ rows.map some, nr, ov) := by
  intro rows
  induction rows with
  | nil => intro data nr ov u _ _ _; simp
  | cons row rows ih =>
    intro data nr ov u hnr hu hall
    obtain ⟨t, hrow, hne⟩ := hall row (List.mem_cons_self _ _)
    rw [List.foldlM_cons, upd_step_nomatch data nr ov row t u hrow hnr (hu ▸ hne)]
    rw [show ((some (data ++ [some row], nr, ov) >>= fun b => List.foldlM upd_step b rows) =
        List.foldlM upd_step (data ++ [some row], nr, ov) rows) from rfl]
    rw [ih (data ++ [some row]) nr ov u hnr hu
      (fun r hr => hall r (List.mem_cons_of_mem _ hr))]
    simp

theorem read_rows_tag (st : CsvState) (hhead : st.header.head? = some "Tag")
    (hrect : ∀ rec ∈ st.records, rec.length = st.header.length) :
    ∀ row ∈ read_rows st, ∃ t, row_get row "Tag" = some t := by
  intro row hrow
  obtain ⟨rec, hmem, rfl⟩ := List.mem_map.mp hrow
  cases hh : st.header with
  | nil => rw [hh] at hhead; exact absurd hhead (by simp)
  | cons h hs =>
    have : h = "Tag" := by rw [hh] at hhead; simpa using hhead
    subst this
    cases hr : rec with
    | nil =>
      have := hrect rec hmem
      rw [hr, hh] at this
      simp at this
    | cons r rs =>
      exact ⟨r, rfl⟩

theorem map_getD_map_some (nr : Row) (rows : List Row) :
    ((rows.map some).map (fun orow => orow.getD nr)) = rows := by
  induction rows with
  | nil => rfl
  | cons r rows ih => simp only [List.map_cons, Option.getD_some, ih]

theorem update_csv_file_nomatch (st : CsvState) (nr : Row) (nt : String)
    (hnr : row_get nr "Tag" = some nt)
    (hall : ∀ row ∈ read_rows st, ∃ t, row_get row "Tag" = some t ∧ py_lower t ≠ py_lower nt) :
    update_csv_file (some st) nr =
      ((read_rows st ++ [nr]).mapM (write_row (row_keys nr))).map
        (fun written => ⟨row_keys nr, written⟩) := by
  simp only [update_csv_file, rows_of]
  rw [upd_fold_nomatch (py_lower nt) (read_rows st) [] nr false nt hnr rfl hall]
  simp only [Option.bind_eq_bind, Option.some_bind]
  rw [if_neg (by decide : ¬ false = true), List.nil_append, map_getD_map_some]
  cases hm : (read_rows st ++ [nr]).mapM (write_row (row_keys nr)) with
  | none => rfl
  | some w => rfl

theorem option_mapM_append_elim (f : α → Option β) (l1 l2 : List α) (out : List β)
    (h : (l1 ++ l2).mapM f = some out) :
    ∃ o1 o2, l1.mapM f = some o1 ∧ l2.mapM f = some o2 ∧ out = o1 ++ o2 := by
  rw [List.mapM_append] at h
  cases h1 : l1.mapM f with
  | none => rw [h1] at h; exact absurd h (by simp)
  | some o1 =>
    rw [h1] at h
    cases h2 : l2.mapM f with
    | none => rw [h2] at h; exact absurd h (by simp)
    | some o2 =>
      rw [h2] at h
      simp only [Option.bind_eq_bind, Option.some_bind, Option.pure_def,
        Option.some.injEq] at h
      exact ⟨o1, o2, rfl, rfl, h.symm⟩

theorem option_mapM_singleton_elim (f : α → Option β) (x : α) (out : List β)
    (h : [x].mapM f = some out) : ∃ y, f x = some y ∧ out = [y] := by
  rw [List.mapM_cons, List.mapM_nil] at h
  cases hx : f x with
  | none => rw [hx] at h; exact absurd h (by simp)
  | some y =>
    rw [hx] at h
    simp only [Option.pure_def, Option.bind_eq_bind, Option.some_bind,
      Option.some.injEq] at h
    exact ⟨y, rfl, h.symm⟩

theorem option_mapM_length (f : α → Option β) :
    ∀ (l : List α) (out : List β), l.mapM f = some out → out.length = l.length := by
  intro l
  induction l with
  | nil => intro out h; simp only [List.mapM_nil, Option.pure_def, Option.some.injEq] at h
           rw [← h]; rfl
  | cons a l ih =>
    intro out h
    rw [List.mapM_cons] at h
    cases ha : f a with
    | none => rw [ha] at h; exact absurd h (by simp)
    | some b =>
      rw [ha] at h
      cases hl : l.mapM f with
      | none => rw [hl] at h; exact absurd h (by simp)
      | some o =>
        rw [hl] at h
        simp only [Option.pure_def, Option.bind_eq_bind, Option.some_bind,
          Option.some.injEq] at h
        rw [← h]
        simp [ih o hl]

theorem upd_step_ok_readable (acc : List (Option Row) × Row × Bool) (row : Row)
    (res : List (Option Row) × Row × Bool) (h : upd_step acc row = some res) :
    ∃ t2, row_get row "Tag" = some t2 := by
  cases ht : row_get row "Tag" with
  | none => rw [upd_step, ht] at h; exact absurd h (by simp)
  | some t => exact ⟨t, rfl⟩

theorem upd_fold_readable :
    ∀ (rows : List Row) (acc res : List (Option Row) × Row × Bool),
    rows.foldlM upd_step acc = some res →
    ∀ row ∈ rows, ∃ t2, row_get row "Tag" = some t2 := by
  intro rows
  induction rows with
  | nil => intro acc res _ row hrow; exact absurd hrow (by simp)
  | cons r rows ih =>
    intro acc res h row hrow
    rw [List.foldlM_cons] at h
    cases hstep : upd_step acc r with
    | none => rw [hstep] at h; exact absurd h (by simp)
    | some acc2 =>
      rw [hstep] at h
      simp only [Option.bind_eq_bind, Option.some_bind] at h
      rcases List.mem_cons.mp hrow with rfl | hrow2
      · exact upd_step_ok_readable acc row acc2 hstep
      · exact ih acc2 res h row hrow2

theorem update_ok_fold_ok (st : CsvState) (nr : Row) (st' : CsvState)
    (h : update_csv_file (some st) nr = some st') :
    ∃ res, (read_rows st).foldlM upd_step ([], nr, false) = some res := by
  simp only [update_csv_file, rows_of, Option.bind_eq_bind] at h
  cases hf : (read_rows st).foldlM upd_step ([], nr, false) with
  | none => rw [hf] at h; exact absurd h (by simp)
  | some res => exact ⟨res, rfl⟩

theorem upd_fold_one_match (L : String) (l1 l2 : List Row) (mrow : Row) (t : String)
    (nr : Row) (u : String)
    (hnr : row_get nr "Tag" = some u) (hu : py_lower u = L)
    (hm : row_get mrow "Tag" = some t) (ht : py_lower t = L)
    (hset : row_get (dict_set nr "Tag" t) "Tag" = some t)
    (h1 : ∀ row ∈ l1, ∃ t2, row_get row "Tag" = some t2 ∧ py_lower t2 ≠ L)
    (h2 : ∀ row ∈ l2, ∃ t2, row_get row "Tag" = some t2 ∧ py_lower t2 ≠ L) :
    (l1 ++ mrow :: l2).foldlM upd_step ([], nr, false) =
      some (l1.map some ++ none :: l2.map some, dict_set nr "Tag" t, true) := by
  rw [List.foldlM_append]
  rw [upd_fold_nomatch L l1 [] nr false u hnr hu h1]
  simp only [Option.bind_eq_bind, Option.some_bind, List.nil_append, List.foldlM_cons]
  rw [show upd_step (l1.map some, nr, false) mrow =
      some (l1.map some ++ [none], dict_set nr "Tag" t, true) from by
    simp only [upd_step, hm, hnr]
    rw [if_pos (by rw [ht, hu])]]
  simp only [Option.some_bind]
  rw [upd_fold_nomatch L l2 (l1.map some ++ [none]) (dict_set nr "Tag" t) true t hset ht h2]
  simp [List.append_assoc]

theorem map_getD_one_match (x : Row) (l1 l2 : List Row) :
    ((l1.map some ++ none :: l2.map some).map (fun orow => orow.getD x)) =
      l1 ++ x :: l2 := by
  simp only [List.map_append, List.map_cons, Option.getD_none, map_getD_map_some]

theorem update_csv_file_one_match (st : CsvState) (nr : Row) (u t : String)
    (mrow : Row) (l1 l2 : List Row)
    (hrows : read_rows st = l1 ++ mrow :: l2)
    (hnr : row_get nr "Tag" = some u)
    (hm : row_get mrow "Tag" = some t) (ht : py_lower t = py_lower u)
    (hset : row_get (dict_set nr "Tag" t) "Tag" = some t)
    (h1 : ∀ row ∈ l1, ∃ t2, row_get row "Tag" = some t2 ∧ py_lower t2 ≠ py_lower u)
    (h2 : ∀ row ∈ l2, ∃ t2, row_get row "Tag" = some t2 ∧ py_lower t2 ≠ py_lower u) :
    update_csv_file (some st) nr =
      ((l1 ++ dict_set nr "Tag" t :: l2).mapM (write_row (row_keys (dict_set nr "Tag" t)))).map
        (fun written => ⟨row_keys (dict_set nr "Tag" t), written⟩) := by
  simp only [update_csv_file, rows_of, hrows]
  rw [upd_fold_one_match (py_lower u) l1 l2 mrow t nr u hnr rfl hm ht hset h1 h2]
  simp only [Option.bind_eq_bind, Option.some_bind]
  rw [if_pos trivial, map_getD_one_match]
  cases hmm : (l1 ++ dict_set nr "Tag" t :: l2).mapM (write_row (row_keys (dict_set nr "Tag" t))) with
  | none => rfl
  | some w => rfl

theorem option_mapM_cons_elim (f : α → Option β) (x : α) (l : List α) (out : List β)
    (h : (x :: l).mapM f = some out) :
    ∃ y o, f x = some y ∧ l.mapM f = some o ∧ out = y :: o := by
  rw [List.mapM_cons] at h
  cases hx : f x with
  | none => rw [hx] at h; exact absurd h (by simp)
  | some y =>
    rw [hx] at h
    cases hl : l.mapM f with
    | none => rw [hl] at h; exact absurd h (by simp)
    | some o =>
      rw [hl] at h
      simp only [Option.pure_def, Option.bind_eq_bind, Option.some_bind,
        Option.some.injEq] at h
      exact ⟨y, o, rfl, rfl, h.symm⟩

/-- C6: Upserting a row over a table keyed case-insensitively (at most
one stored record matches): if exactly one stored record's tag matches
the new tag case-insensitively, the rewritten table keeps that record's
original stored tag text at the same position while replacing its year
counts with the new values; if no record matches, a new record is
appended at the end bearing the new tag text in its given case. -/
theorem c6_upsert_casing_and_append (st : CsvState) (cs : Nat → Nat) (nt : String)
    (st' : CsvState) :
    (∀ (l1 l2 : List (List String)) (rec : List String) (t : String),
      st.records = l1 ++ rec :: l2 →
      row_get (st.header.zip rec) "Tag" = some t →
      py_lower t = py_lower nt →
      (∀ rec2 ∈ l1 ++ l2, ∀ t2, row_get (st.header.zip rec2) "Tag" = some t2 →
        py_lower t2 ≠ py_lower nt) →
      update_csv_file (some st) (build_row cs nt) = some st' →
      ∃ w1 w2,
        (l1.map (fun rec2 => st.header.zip rec2)).mapM (write_row csv_fieldnames) = some w1 ∧
        (l2.map (fun rec2 => st.header.zip rec2)).mapM (write_row csv_fieldnames) = some w2 ∧
        w1.length = l1.length ∧
        st'.header = csv_fieldnames ∧
        st'.records = w1 ++ (t :: year_values cs) :: w2) ∧
    ((∀ rec2 ∈ st.records, ∀ t2, row_get (st.header.zip rec2) "Tag" = some t2 →
        py_lower t2 ≠ py_lower nt) →
      update_csv_file (some st) (build_row cs nt) = some st' →
      ∃ w,
        (read_rows st).mapM (write_row csv_fieldnames) = some w ∧
        w.length = st.records.length ∧
        st'.header = csv_fieldnames ∧
        st'.records = w ++ [nt :: year_values cs]) := by
  constructor
  · intro l1 l2 rec t hrec hget htl hnom hupd
    have hrows : read_rows st = l1.map (fun rec2 => st.header.zip rec2) ++
        (st.header.zip rec) :: l2.map (fun rec2 => st.header.zip rec2) := by
      simp only [read_rows, hrec, List.map_append, List.map_cons]
    obtain ⟨res, hfold⟩ := update_ok_fold_ok st (build_row cs nt) st' hupd
    have hread := upd_fold_readable (read_rows st) _ res hfold
    have h1 : ∀ row ∈ l1.map (fun rec2 => st.header.zip rec2), ∃ t2,
        row_get row "Tag" = some t2 ∧ py_lower t2 ≠ py_lower nt := by
      intro row hrow
      obtain ⟨t2, ht2⟩ := hread row (by rw [hrows]; exact List.mem_append_left _ hrow)
      obtain ⟨rec2, hmem2, rfl⟩ := List.mem_map.mp hrow
      exact ⟨t2, ht2, hnom rec2 (List.mem_append_left _ hmem2) t2 ht2⟩
    have h2 : ∀ row ∈ l2.map (fun rec2 => st.header.zip rec2), ∃ t2,
        row_get row "Tag" = some t2 ∧ py_lower t2 ≠ py_lower nt := by
      intro row hrow
      obtain ⟨t2, ht2⟩ := hread row (by
        rw [hrows]
        exact List.mem_append_right _ (List.mem_cons_of_mem _ hrow))
      obtain ⟨rec2, hmem2, rfl⟩ := List.mem_map.mp hrow
      exact ⟨t2, ht2, hnom rec2 (List.mem_append_right _ hmem2) t2 ht2⟩
    have hchar := update_csv_file_one_match st (build_row cs nt) nt t
      (st.header.zip rec) (l1.map (fun rec2 => st.header.zip rec2))
      (l2.map (fun rec2 => st.header.zip rec2)) hrows rfl hget htl rfl h1 h2
    rw [hupd] at hchar
    have hk : row_keys (dict_set (build_row cs nt) "Tag" t) = csv_fieldnames := rfl
    rw [hk] at hchar
    cases hmm : (l1.map (fun rec2 => st.header.zip rec2) ++
        dict_set (build_row cs nt) "Tag" t ::
        l2.map (fun rec2 => st.header.zip rec2)).mapM (write_row csv_fieldnames) with
    | none => rw [hmm] at hchar; exact absurd hchar (by simp)
    | some w =>
      rw [hmm] at hchar
      simp only [Option.map_some', Option.some.injEq] at hchar
      obtain ⟨o1, o2, hm1, hm2, hw⟩ := option_mapM_append_elim _ _ _ w hmm
      obtain ⟨y, o3, hy, hm3, ho2⟩ := option_mapM_cons_elim _ _ _ o2 hm2
      have hyv : y = t :: year_values cs := by
        rw [show write_row csv_fieldnames (dict_set (build_row cs nt) "Tag" t) =
          some (t :: year_values cs) from rfl] at hy
        exact (Option.some.injEq _ _).mp hy.symm ▸ rfl
      refine ⟨o1, o3, hm1, hm3, ?_, ?_, ?_⟩
      · rw [option_mapM_length _ _ o1 hm1, List.length_map]
      · rw [hchar]
      · rw [hchar, hw, ho2, hyv]
  · intro hnom hupd
    obtain ⟨res, hfold⟩ := update_ok_fold_ok st (build_row cs nt) st' hupd
    have hread := upd_fold_readable (read_rows st) _ res hfold
    have hall : ∀ row ∈ read_rows st, ∃ t2,
        row_get row "Tag" = some t2 ∧ py_lower t2 ≠ py_lower nt := by
      intro row hrow
      obtain ⟨t2, ht2⟩ := hread row hrow
      obtain ⟨rec2, hmem2, rfl⟩ := List.mem_map.mp hrow
      exact ⟨t2, ht2, hnom rec2 hmem2 t2 ht2⟩
    have hchar := update_csv_file_nomatch st (build_row cs nt) nt rfl hall
    rw [hupd] at hchar
    have hk : row_keys (build_row cs nt) = csv_fieldnames := rfl
    rw [hk] at hchar
    cases hmm : (read_rows st ++ [build_row cs nt]).mapM (write_row csv_fieldnames) with
    | none => rw [hmm] at hchar; exact absurd hchar (by simp)
    | some w =>
      rw [hmm] at hchar
      simp only [Option.map_some', Option.some.injEq] at hchar
      obtain ⟨o1, o2, hm1, hm2, hw⟩ := option_mapM_append_elim _ _ _ w hmm
      obtain ⟨y, hy, ho2⟩ := option_mapM_singleton_elim _ _ _ hm2
      have hyv : y = nt :: year_values cs := by
        rw [show write_row csv_fieldnames (build_row cs nt) =
          some (nt :: year_values cs) from rfl] at hy
        exact (Option.some.injEq _ _).mp hy.symm ▸ rfl
      refine ⟨o1, hm1, ?_, ?_, ?_⟩
      · rw [option_mapM_length _ _ o1 hm1, read_rows, List.length_map]
      · rw [hchar]
      · rw [hchar, hw, ho2, hyv]



theorem c6_witness :
    ∃ w1 w2,
      (([] : List (List String)).map (fun rec2 => st_c6.header.zip rec2)).mapM
        (write_row csv_fieldnames) = some w1 ∧
      (([] : List (List String)).map (fun rec2 => st_c6.header.zip rec2)).mapM
        (write_row csv_fieldnames) = some w2 ∧
      w1.length = ([] : List (List String)).length ∧
      st_c6'.header = csv_fieldnames ∧
      st_c6'.records = w1 ++ ("fox" :: year_values counts_zero) :: w2 :=
  (c6_upsert_casing_and_append st_c6 counts_zero "Fox" st_c6').1 [] [] ["fox", "1"] "fox"
    rfl rfl (by rfl) (fun rec2 h => absurd h (by simp)) (by rfl)

/-- C7 counterexample: a prior record with the extra column `2006`
(outside the current run's schema) makes the rewrite fail with
`ValueError` instead of succeeding with the column dropped. -/
theorem c7_counterexample :
    update_csv_file (some st_c7) (build_row counts_zero "fox") = none := by rfl

/-- C7 (amended): The rewrite uses exactly the column set derived from
the current run's year offsets.  For a prior table whose columns all lie
within the current schema, the rewrite succeeds, writing each record
under the current columns with empty fields for columns the record lacks
and appending the new record; but if any prior record carries a column
outside the current schema, the rewrite does not drop it — it raises
(`ValueError` from `csv.DictWriter`, modelled as `none`). -/
theorem c7_schema_drift (st : CsvState) (cs : Nat → Nat) (nt : String)
    (hhead : st.header.head? = some "Tag")
    (hrect : ∀ rec ∈ st.records, rec.length = st.header.length)
    (hnomatch : ∀ rec ∈ st.records, ∀ t2, row_get (st.header.zip rec) "Tag" = some t2 →
      py_lower t2 ≠ py_lower nt) :
    ((∀ hcol ∈ st.header, hcol ∈ csv_fieldnames) →
      update_csv_file (some st) (build_row cs nt) =
        some ⟨csv_fieldnames,
          st.records.map (fun rec => csv_fieldnames.map
            (fun fc => (row_get (st.header.zip rec) fc).getD "")) ++
          [nt :: year_values cs]⟩) ∧
    ((∃ hcol ∈ st.header, hcol ∉ csv_fieldnames) → st.records ≠ [] →
      update_csv_file (some st) (build_row cs nt) = none) := by
  have hall : ∀ row ∈ read_rows st, ∃ t, row_get row "Tag" = some t ∧
      py_lower t ≠ py_lower nt := by
    intro row hrow
    obtain ⟨t, ht⟩ := read_rows_tag st hhead hrect row hrow
    obtain ⟨rec, hmem, rfl⟩ := List.mem_map.mp hrow
    exact ⟨t, ht, hnomatch rec hmem t ht⟩
  have hchar := update_csv_file_nomatch st (build_row cs nt) nt rfl hall
  have hk : row_keys (build_row cs nt) = csv_fieldnames := rfl
  rw [hk] at hchar
  have hkeys : ∀ rec ∈ st.records, row_keys (st.header.zip rec) = st.header := by
    intro rec hmem
    simp only [row_keys]
    exact List.map_fst_zip _ _ (le_of_eq (hrect rec hmem).symm)
  constructor
  · intro hsub
    rw [hchar]
    rw [option_mapM_eq_map (write_row csv_fieldnames)
      (fun row => csv_fieldnames.map (fun fc => (row_get row fc).getD "")) _ ?_]
    · simp only [Option.map_some', List.map_append, read_rows, List.map_map]
      rfl
    · intro row hrow
      rcases List.mem_append.mp hrow with hrow1 | hrow2
      · obtain ⟨rec, hmem, rfl⟩ := List.mem_map.mp hrow1
        rw [write_row, if_pos]
        rw [hkeys rec hmem]
        rw [List.all_eq_true]
        intro k hk
        exact List.elem_eq_true_of_mem (hsub k hk)
      · rw [List.mem_singleton.mp hrow2]
        rfl
  · intro ⟨hcol, hcmem, hcout⟩ hne
    rw [hchar]
    obtain ⟨rec, hmem⟩ : ∃ rec, rec ∈ st.records := by
      cases hr : st.records with
      | nil => exact absurd hr hne
      | cons a l => exact ⟨a, List.mem_cons_self _ _⟩
    rw [option_mapM_none (write_row csv_fieldnames) _ (st.header.zip rec)
      (List.mem_append_left _ (by rw [read_rows]; exact List.mem_map.mpr ⟨rec, hmem, rfl⟩)) ?_]
    · rfl
    · rw [write_row, if_neg]
      rw [hkeys rec hmem]
      intro hall
      rw [List.all_eq_true] at hall
      exact hcout (List.elem_iff.mp (hall hcol hcmem))


theorem py_lower_intercalate_go (s : String) (hs : py_lower s = s) :
    ∀ (as : List String) (acc : String), py_lower acc = acc →
    (∀ a ∈ as, py_lower a = a) →
    py_lower (String.intercalate.go acc s as) = String.intercalate.go acc s as := by
  intro as
  induction as with
  | nil =>
    intro acc hacc _
    rw [String.intercalate.go]
    exact hacc
  | cons a as ih =>
    intro acc hacc hall
    rw [String.intercalate.go]
    exact ih (acc ++ s ++ a)
      (by rw [py_lower_append, py_lower_append, hacc, hs, hall a (List.mem_cons_self _ _)])
      (fun x hx => hall x (List.mem_cons_of_mem _ hx))

theorem py_lower_intercalate (s : String) (hs : py_lower s = s) (l : List String)
    (hl : ∀ a ∈ l, py_lower a = a) :
    py_lower (String.intercalate s l) = String.intercalate s l := by
  cases l with
  | nil => rfl
  | cons a as =>
    rw [String.intercalate]
    exact py_lower_intercalate_go s hs as a (hl a (List.mem_cons_self _ _))
      (fun x hx => hl x (List.mem_cons_of_mem _ hx))

theorem contains_eq_false_of_not_mem (l : List String) (a : String) (h : a ∉ l) :
    l.contains a = false := by
  cases hc : l.contains a with
  | false => rfl
  | true => exact absurd (List.elem_iff.mp hc) h

theorem lower_keys_mem (tags : List String) :
    ∀ x ∈ lower_keys tags, ∃ t ∈ tags, x = py_lower t := by
  have gen : ∀ (ts : List String) (acc : List String),
      (∀ x ∈ acc, ∃ t ∈ tags, x = py_lower t) →
      (∀ t ∈ ts, t ∈ tags) →
      ∀ x ∈ ts.foldl (fun acc t =>
          if acc.contains (py_lower t) then acc else acc ++ [py_lower t]) acc,
        ∃ t ∈ tags, x = py_lower t := by
    intro ts
    induction ts with
    | nil => intro acc hacc _ x hx; exact hacc x hx
    | cons t ts ih =>
      intro acc hacc hts x hx
      rw [List.foldl_cons] at hx
      refine ih _ ?_ (fun t2 ht2 => hts t2 (List.mem_cons_of_mem _ ht2)) x hx
      intro y hy
      by_cases hc : acc.contains (py_lower t) = true
      · rw [if_pos hc] at hy
        exact hacc y hy
      · rw [if_neg hc] at hy
        rcases List.mem_append.mp hy with hy1 | hy2
        · exact hacc y hy1
        · exact ⟨t, hts t (List.mem_cons_self _ _), List.mem_singleton.mp hy2⟩
  exact gen tags [] (by intro x hx; exact absurd hx (by simp)) (fun t ht => ht)

theorem known_fold_subset :
    ∀ (rows : List Row) (keys out : List String),
    rows.foldlM known_step keys = some out → out ⊆ keys := by
  intro rows
  induction rows with
  | nil =>
    intro keys out h
    simp only [List.foldlM_nil, Option.pure_def, Option.some.injEq] at h
    rw [← h]
    exact List.Subset.refl _
  | cons row rows ih =>
    intro keys out h
    rw [List.foldlM_cons] at h
    cases hstep : known_step keys row with
    | none => rw [hstep] at h; exact absurd h (by simp)
    | some keys2 =>
      rw [hstep] at h
      simp only [Option.bind_eq_bind, Option.some_bind] at h
      have hsub : keys2 ⊆ keys := by
        rw [known_step] at hstep
        cases ht : row_get row "Tag" with
        | none => rw [ht] at hstep; exact absurd hstep (by simp)
        | some t =>
          rw [ht] at hstep
          simp only [Option.some.injEq] at hstep
          rw [← hstep]
          split
          · exact List.erase_subset _ _
          · exact List.Subset.refl _
      exact List.Subset.trans (ih keys2 out h) hsub

theorem remove_known_tags_subset (st : CsvState) (tags out : List String)
    (h : remove_known_tags (some st) tags = some out) : out ⊆ lower_keys tags := by
  rw [remove_known_tags] at h
  exact known_fold_subset (read_rows st) (lower_keys tags) out h

theorem strip_flag_subset (flag : String) (args : List String) :
    strip_flag flag args ⊆ args := by
  rw [strip_flag]
  split
  · exact List.erase_subset _ _
  · exact List.Subset.refl _

theorem expand_p_no_listing (listing : Nat → Nat → List String) (args1 : List String)
    (hp : args1.contains "-p" = false) : expand_p listing args1 = some args1 := by
  rw [expand_p, hp]
  rfl

theorem c7_witness :
    update_csv_file (some st_c7b) (build_row counts_zero "fox") =
      some ⟨csv_fieldnames,
        st_c7b.records.map (fun rec => csv_fieldnames.map
          (fun fc => (row_get (st_c7b.header.zip rec) fc).getD "")) ++
        ["fox" :: year_values counts_zero]⟩ ∧
    update_csv_file (some st_c7) (build_row counts_zero "fox") = none := by
  have hnom1 : ∀ rec ∈ st_c7b.records, ∀ t2,
      row_get (st_c7b.header.zip rec) "Tag" = some t2 →
      py_lower t2 ≠ py_lower "fox" := by
    intro rec hmem t2 hget
    rw [show st_c7b.records = [["cat", "7"]] from rfl] at hmem
    rw [List.mem_singleton] at hmem
    subst hmem
    rw [show row_get (st_c7b.header.zip ["cat", "7"]) "Tag" = some "cat" from rfl] at hget
    rw [← Option.some.inj hget]
    decide
  have hnom2 : ∀ rec ∈ st_c7.records, ∀ t2,
      row_get (st_c7.header.zip rec) "Tag" = some t2 →
      py_lower t2 ≠ py_lower "fox" := by
    intro rec hmem t2 hget
    rw [show st_c7.records = [["cat", "7"]] from rfl] at hmem
    rw [List.mem_singleton] at hmem
    subst hmem
    rw [show row_get (st_c7.header.zip ["cat", "7"]) "Tag" = some "cat" from rfl] at hget
    rw [← Option.some.inj hget]
    decide
  constructor
  · exact (c7_schema_drift st_c7b counts_zero "fox" rfl (by decide) hnom1).1 (by decide)
  · exact (c7_schema_drift st_c7 counts_zero "fox" rfl (by decide) hnom2).2
      ⟨"2006", by decide, by decide⟩ (by decide)

-- C10 counterexample pieces

/-- C10 (amended): every tag token taken from the command-line argument
list is lowercased when read, so for every run that does not source tags
from the `-p` popularity listing, every query string produced by
`get_queries` — and hence the tag text of any record newly appended for
it — is all-lowercase.  (Tags sourced via `-p` keep the casing the
listing provides, so they can introduce mixed-case appends; see the
counterexample.) -/
theorem c10_argv_lowercased (argv : List String) (listing : Nat → Nat → List String)
    (store : Option CsvState) (qs : List String)
    (hp : "-p" ∉ argv.map py_lower)
    (h : get_queries argv listing store = some qs) :
    ∀ q ∈ qs, py_lower q = q := by
  intro q hq
  have h0 : ∀ x ∈ argv.map py_lower, py_lower x = x := by
    intro x hx
    obtain ⟨t, _, rfl⟩ := List.mem_map.mp hx
    exact py_lower_idem t
  have hp1 : (strip_flag "-o" (argv.map py_lower)).contains "-p" = false :=
    contains_eq_false_of_not_mem _ _ (fun hm => hp (strip_flag_subset _ _ hm))
  rw [get_queries, expand_p_no_listing listing _ hp1] at h
  have h4 : ∀ x ∈ strip_flag "-c" (strip_flag "-w" (strip_flag "-o" (argv.map py_lower))),
      py_lower x = x :=
    fun x hx => h0 x (strip_flag_subset _ _ (strip_flag_subset _ _ (strip_flag_subset _ _ hx)))
  dsimp only at h
  split at h
  · simp only [Option.some.injEq] at h
    rw [← h] at hq
    rw [List.mem_singleton] at hq
    subst hq
    exact py_lower_intercalate " " rfl _ h4
  · split at h
    · cases store with
      | none =>
        rw [remove_known_tags] at h
        simp only [Option.some.injEq] at h
        exact h4 q (h ▸ hq)
      | some st =>
        have hsub := remove_known_tags_subset st _ qs h
        obtain ⟨t, _, rfl⟩ := lower_keys_mem _ q (hsub hq)
        exact py_lower_idem t
    · simp only [Option.some.injEq] at h
      exact h4 q (h ▸ hq)

/-- C10 counterexample: with `-p`, tag names scraped from the listing are
used and persisted in the casing the listing provides — here a listing
returning `Fox` yields the query `Fox` and a newly appended record whose
stored tag text `Fox` is not all-lowercase. -/
theorem c10_counterexample :
    get_queries ["-p", "1"] (fun _ _ => ["Fox"]) none = some ["Fox"] ∧
    run_filter_upsert (fun _ => counts_zero) none ["Fox"] =
      some (some ⟨csv_fieldnames, ["Fox" :: year_values counts_zero]⟩) ∧
    (py_lower "Fox" == "Fox") = false :=
  ⟨by rfl, by rfl, by decide⟩

theorem c10_witness : py_lower "wolf" = "wolf" :=
  c10_argv_lowercased ["WoLf"] (fun _ _ => []) none ["wolf"] (by decide) (by rfl)
    "wolf" (List.mem_singleton.mpr rfl)


theorem upd_key_pres (k v : String) (kv : String × String) :
    ((if kv.1 == k then (kv.1, v) else kv).1) = kv.1 := by
  split <;> rfl

theorem find?_upd (r : Row) (k v : String) :
    (r.map (fun kv => if kv.1 == k then (kv.1, v) else kv)).find? (fun kv => kv.1 == k) =
    (r.find? (fun kv => kv.1 == k)).map (fun kv => if kv.1 == k then (kv.1, v) else kv) := by
  rw [List.find?_map]
  have hpe : ((fun kv => kv.1 == k) ∘ fun kv : String × String =>
      if kv.1 == k then (kv.1, v) else kv) = (fun kv : String × String => kv.1 == k) := by
    funext kv
    simp only [Function.comp_apply]
    rw [upd_key_pres]
  rw [hpe]

theorem row_get_dict_set (r : Row) (k v u : String)
    (h : row_get r k = some u) : row_get (dict_set r k v) k = some v := by
  rw [row_get] at h
  cases hf : r.find? (fun kv => kv.1 == k) with
  | none => rw [hf] at h; exact absurd h (by simp)
  | some kv0 =>
    have hp := List.find?_some hf
    rw [dict_set, if_pos (by rw [hf]; rfl)]
    rw [row_get, find?_upd, hf]
    simp only [Option.map_some']
    rw [if_pos hp]

theorem row_keys_dict_set (r : Row) (k v : String)
    (hs : (r.find? (fun kv => kv.1 == k)).isSome = true) :
    row_keys (dict_set r k v) = row_keys r := by
  rw [dict_set, if_pos hs, row_keys, row_keys, List.map_map]
  congr 1
  funext kv
  simp only [Function.comp]
  rw [upd_key_pres]

theorem option_mapM_mem_forward (f : α → Option β) :
    ∀ (l : List α) (out : List β), l.mapM f = some out →
    ∀ x ∈ l, ∃ y ∈ out, f x = some y := by
  intro l
  induction l with
  | nil => intro out _ x hx; exact absurd hx (by simp)
  | cons a l ih =>
    intro out h x hx
    rw [List.mapM_cons] at h
    cases ha : f a with
    | none => rw [ha] at h; exact absurd h (by simp)
    | some b =>
      rw [ha] at h
      cases hl : l.mapM f with
      | none => rw [hl] at h; exact absurd h (by simp)
      | some o =>
        rw [hl] at h
        simp only [Option.pure_def, Option.bind_eq_bind, Option.some_bind,
          Option.some.injEq] at h
        rcases List.mem_cons.mp hx with rfl | hx2
        · exact ⟨b, by rw [← h]; exact List.mem_cons_self _ _, ha⟩
        · obtain ⟨y, hy, hfy⟩ := ih o hl x hx2
          exact ⟨y, by rw [← h]; exact List.mem_cons_of_mem _ hy, hfy⟩

theorem option_mapM_mem_backward (f : α → Option β) :
    ∀ (l : List α) (out : List β), l.mapM f = some out →
    ∀ y ∈ out, ∃ x ∈ l, f x = some y := by
  intro l
  induction l with
  | nil =>
    intro out h y hy
    simp only [List.mapM_nil, Option.pure_def, Option.some.injEq] at h
    rw [← h] at hy
    exact absurd hy (by simp)
  | cons a l ih =>
    intro out h y hy
    rw [List.mapM_cons] at h
    cases ha : f a with
    | none => rw [ha] at h; exact absurd h (by simp)
    | some b =>
      rw [ha] at h
      cases hl : l.mapM f with
      | none => rw [hl] at h; exact absurd h (by simp)
      | some o =>
        rw [hl] at h
        simp only [Option.pure_def, Option.bind_eq_bind, Option.some_bind,
          Option.some.injEq] at h
        rw [← h] at hy
        rcases List.mem_cons.mp hy with rfl | hy2
        · exact ⟨a, List.mem_cons_self _ _, ha⟩
        · obtain ⟨x, hx, hfx⟩ := ih o hl y hy2
          exact ⟨x, List.mem_cons_of_mem _ hx, hfx⟩

theorem write_row_tag_value (d : Row) (rec : List String)
    (h : write_row csv_fieldnames d = some rec) :
    row_get (csv_fieldnames.zip rec) "Tag" = some ((row_get d "Tag").getD "") := by
  rw [write_row] at h
  split at h
  · simp only [Option.some.injEq] at h
    rw [← h]
    rfl
  · exact absurd h (by simp)

theorem row_get_isSome (r : Row) (k u : String) (h : row_get r k = some u) :
    (r.find? (fun kv => kv.1 == k)).isSome = true := by
  rw [row_get] at h
  cases hf : r.find? (fun kv => kv.1 == k) with
  | none => rw [hf] at h; exact absurd h (by simp)
  | some kv0 => rfl

theorem upd_fold_spec (u : String) :
    ∀ (rows : List Row) (data : List (Option Row)) (nr : Row) (ov : Bool)
      (res : List (Option Row) × Row × Bool),
    rows.foldlM upd_step (data, nr, ov) = some res →
    (∃ u0, row_get nr "Tag" = some u0 ∧ py_lower u0 = py_lower u) →
    row_keys nr = csv_fieldnames →
    (ov = true → none ∈ data) →
    ((∃ u1, row_get res.2.1 "Tag" = some u1 ∧ py_lower u1 = py_lower u) ∧
     row_keys res.2.1 = csv_fieldnames ∧
     (∀ orow ∈ data, orow ∈ res.1) ∧
     (∀ row ∈ rows, some row ∈ res.1 ∨
        (∃ t, row_get row "Tag" = some t ∧ py_lower t = py_lower u)) ∧
     (res.2.2 = true → none ∈ res.1)) := by
  intro rows
  induction rows with
  | nil =>
    intro data nr ov res h hnr hkeys hov
    simp only [List.foldlM_nil, Option.pure_def, Option.some.injEq] at h
    rw [← h]
    exact ⟨hnr, hkeys, fun orow ho => ho, fun row hrow => absurd hrow (by simp), hov⟩
  | cons row rows ih =>
    intro data nr ov res h hnr hkeys hov
    obtain ⟨u0, hu0, hlow⟩ := hnr
    rw [List.foldlM_cons] at h
    cases ht : row_get row "Tag" with
    | none =>
      rw [show upd_step (data, nr, ov) row = none from by
        simp only [upd_step, ht]] at h
      exact absurd h (by simp)
    | some t =>
      by_cases hmatch : py_lower t = py_lower u0
      · rw [show upd_step (data, nr, ov) row =
            some (data ++ [none], dict_set nr "Tag" t, true) from by
          simp only [upd_step, ht, hu0]
          rw [if_pos hmatch]] at h
        simp only [Option.bind_eq_bind, Option.some_bind] at h
        have hres := ih (data ++ [none]) (dict_set nr "Tag" t) true res h
          ⟨t, row_get_dict_set nr "Tag" t u0 hu0, by rw [hmatch, hlow]⟩
          (by rw [row_keys_dict_set nr "Tag" t (row_get_isSome nr "Tag" u0 hu0), hkeys])
          (fun _ => List.mem_append_right _ (List.mem_singleton.mpr rfl))
        obtain ⟨c1, c2, c3, c4, c5⟩ := hres
        refine ⟨c1, c2, fun orow ho => c3 orow (List.mem_append_left _ ho), ?_, c5⟩
        intro row2 hrow2
        rcases List.mem_cons.mp hrow2 with rfl | hrow3
        · exact Or.inr ⟨t, ht, by rw [hmatch, hlow]⟩
        · exact c4 row2 hrow3
      · rw [show upd_step (data, nr, ov) row =
            some (data ++ [some row], nr, ov) from by
          simp only [upd_step, ht, hu0]
          rw [if_neg hmatch]] at h
        simp only [Option.bind_eq_bind, Option.some_bind] at h
        have hres := ih (data ++ [some row]) nr ov res h ⟨u0, hu0, hlow⟩ hkeys
          (fun hovt => List.mem_append_left _ (hov hovt))
        obtain ⟨c1, c2, c3, c4, c5⟩ := hres
        refine ⟨c1, c2, fun orow ho => c3 orow (List.mem_append_left _ ho), ?_, c5⟩
        intro row2 hrow2
        rcases List.mem_cons.mp hrow2 with rfl | hrow3
        · exact Or.inl (c3 (some row2) (List.mem_append_right _ (List.mem_singleton.mpr rfl)))
        · exact c4 row2 hrow3

theorem update_build_row_spec (store : Option CsvState) (cs' : Nat → Nat) (u : String)
    (st' : CsvState)
    (h : update_csv_file store (build_row cs' u) = some st') :
    st'.header = csv_fieldnames ∧
    ReadOK st' ∧
    HasTagL st' (py_lower u) ∧
    (∀ row ∈ rows_of store, ∀ t, row_get row "Tag" = some t → HasTagL st' (py_lower t)) := by
  simp only [update_csv_file, Option.bind_eq_bind] at h
  cases hf : (rows_of store).foldlM upd_step ([], build_row cs' u, false) with
  | none => rw [hf] at h; exact absurd h (by simp)
  | some res =>
    rcases res with ⟨data, nr, ov⟩
    obtain ⟨⟨u1, hu1, hl1⟩, hkeys, hdmem, hrows, hovn⟩ :=
      upd_fold_spec u (rows_of store) [] (build_row cs' u) false (data, nr, ov) hf
        ⟨u, rfl, rfl⟩ rfl (by simp)
    rw [hf] at h
    simp only [Option.some_bind] at h
    rw [hkeys] at h
    cases hm : (if ov = true then data.map (fun orow => orow.getD nr)
        else data.map (fun orow => orow.getD nr) ++ [nr]).mapM (write_row csv_fieldnames) with
    | none => rw [hm] at h; exact absurd h (by simp)
    | some w =>
      rw [hm] at h
      simp only [Option.pure_def, Option.some_bind, Option.some.injEq] at h
      have hst : st' = ⟨csv_fieldnames, w⟩ := h.symm
      have hnr_mem : nr ∈ (if ov = true then data.map (fun orow => orow.getD nr)
          else data.map (fun orow => orow.getD nr) ++ [nr]) := by
        cases ov with
        | true =>
          rw [if_pos rfl]
          exact List.mem_map.mpr ⟨none, hovn rfl, rfl⟩
        | false =>
          rw [if_neg (by decide)]
          exact List.mem_append_right _ (List.mem_singleton.mpr rfl)
      have hread : ∀ rec ∈ w, ∃ d, write_row csv_fieldnames d = some rec :=
        fun rec hrec => by
          obtain ⟨d, _, hd⟩ := option_mapM_mem_backward _ _ w hm rec hrec
          exact ⟨d, hd⟩
      refine ⟨by rw [hst], ?_, ?_, ?_⟩
      · rw [hst]
        intro row hrow
        simp only [read_rows] at hrow
        obtain ⟨rec, hrec, rfl⟩ := List.mem_map.mp hrow
        obtain ⟨d, hd⟩ := hread rec hrec
        exact ⟨_, write_row_tag_value d rec hd⟩
      · obtain ⟨rec, hrec, hw⟩ := option_mapM_mem_forward _ _ w hm nr hnr_mem
        refine ⟨csv_fieldnames.zip rec, ?_, (row_get nr "Tag").getD "", ?_, ?_⟩
        · rw [hst]
          exact List.mem_map.mpr ⟨rec, hrec, rfl⟩
        · exact write_row_tag_value nr rec hw
        · rw [hu1]
          exact hl1
      · intro row hrow t ht
        rcases hrows row hrow with hmem | ⟨t2, ht2, hl2⟩
        · have hrow_mem : row ∈ (if ov = true then data.map (fun orow => orow.getD nr)
              else data.map (fun orow => orow.getD nr) ++ [nr]) := by
            have : row ∈ data.map (fun orow => orow.getD nr) :=
              List.mem_map.mpr ⟨some row, hmem, rfl⟩
            cases ov with
            | true => rw [if_pos rfl]; exact this
            | false => rw [if_neg (by decide)]; exact List.mem_append_left _ this
          obtain ⟨rec, hrec, hw⟩ := option_mapM_mem_forward _ _ w hm row hrow_mem
          refine ⟨csv_fieldnames.zip rec, ?_, (row_get row "Tag").getD "", ?_, ?_⟩
          · rw [hst]
            exact List.mem_map.mpr ⟨rec, hrec, rfl⟩
          · exact write_row_tag_value row rec hw
          · rw [ht]
            rfl
        · have : t2 = t := Option.some.inj (ht2 ▸ ht)
          subst this
          rw [hl2]
          obtain ⟨rec, hrec, hw⟩ := option_mapM_mem_forward _ _ w hm nr hnr_mem
          refine ⟨csv_fieldnames.zip rec, ?_, (row_get nr "Tag").getD "", ?_, ?_⟩
          · rw [hst]
            exact List.mem_map.mpr ⟨rec, hrec, rfl⟩
          · exact write_row_tag_value nr rec hw
          · rw [hu1]
            exact hl1

theorem lower_keys_foldl_mono (ts : List String) :
    ∀ (acc : List String) (x : String), x ∈ acc →
    x ∈ ts.foldl (fun acc t =>
      if acc.contains (py_lower t) then acc else acc ++ [py_lower t]) acc := by
  induction ts with
  | nil => intro acc x hx; exact hx
  | cons t ts ih =>
    intro acc x hx
    rw [List.foldl_cons]
    apply ih
    split
    · exact hx
    · exact List.mem_append_left _ hx

theorem lower_keys_complete (tags : List String) :
    ∀ t ∈ tags, py_lower t ∈ lower_keys tags := by
  rw [lower_keys]
  have gen : ∀ (ts : List String) (acc : List String) (t : String), t ∈ ts →
      py_lower t ∈ ts.foldl (fun acc t =>
        if acc.contains (py_lower t) then acc else acc ++ [py_lower t]) acc := by
    intro ts
    induction ts with
    | nil => intro acc t ht; exact absurd ht (by simp)
    | cons t2 ts ih =>
      intro acc t ht
      rcases List.mem_cons.mp ht with rfl | ht2
      · rw [List.foldl_cons]
        apply lower_keys_foldl_mono
        by_cases hc : acc.contains (py_lower t) = true
        · rw [if_pos hc]
          exact List.elem_iff.mp hc
        · rw [if_neg hc]
          exact List.mem_append_right _ (List.mem_singleton.mpr rfl)
      · rw [List.foldl_cons]
        exact ih _ t ht2
  exact fun t ht => gen tags [] t ht

theorem lower_keys_nodup (tags : List String) : (lower_keys tags).Nodup := by
  rw [lower_keys]
  have gen : ∀ (ts : List String) (acc : List String), acc.Nodup →
      (ts.foldl (fun acc t =>
        if acc.contains (py_lower t) then acc else acc ++ [py_lower t]) acc).Nodup := by
    intro ts
    induction ts with
    | nil => intro acc h; exact h
    | cons t ts ih =>
      intro acc h
      rw [List.foldl_cons]
      apply ih
      by_cases hc : acc.contains (py_lower t) = true
      · rw [if_pos hc]; exact h
      · rw [if_neg hc]
        rw [List.nodup_append]
        refine ⟨h, List.nodup_singleton _, ?_⟩
        intro a ha hb
        rw [List.mem_singleton] at hb
        subst hb
        exact hc (List.elem_eq_true_of_mem ha)
  exact gen tags [] List.nodup_nil

theorem known_fold_nil :
    ∀ (rows : List Row) (keys : List String),
    keys.Nodup →
    (∀ row ∈ rows, ∃ t, row_get row "Tag" = some t) →
    (∀ k ∈ keys, ∃ row ∈ rows, ∃ t, row_get row "Tag" = some t ∧ py_lower t = k) →
    rows.foldlM known_step keys = some [] := by
  intro rows
  induction rows with
  | nil =>
    intro keys _ _ hcov
    cases keys with
    | nil => rfl
    | cons k ks =>
      obtain ⟨row, hrow, _⟩ := hcov k (List.mem_cons_self _ _)
      exact absurd hrow (by simp)
  | cons row rows ih =>
    intro keys hnd hread hcov
    obtain ⟨t, ht⟩ := hread row (List.mem_cons_self _ _)
    rw [List.foldlM_cons]
    rw [show known_step keys row =
        some (if keys.contains (py_lower t) then keys.erase (py_lower t) else keys) from by
      rw [known_step, ht]]
    simp only [Option.bind_eq_bind, Option.some_bind]
    apply ih
    · split
      · exact hnd.erase _
      · exact hnd
    · exact fun r hr => hread r (List.mem_cons_of_mem _ hr)
    · intro k hk
      have hkkeys : k ∈ keys := by
        revert hk
        split
        · exact fun hk => (List.Nodup.mem_erase_iff hnd).mp hk |>.2
        · exact fun hk => hk
      have hkne : k ≠ py_lower t := by
        intro heq
        subst heq
        revert hk
        split
        · intro hk
          exact ((List.Nodup.mem_erase_iff hnd).mp hk).1 rfl
        · intro hk
          rename_i hc
          exact hc (List.elem_eq_true_of_mem hkkeys)
      obtain ⟨row2, hrow2, t2, ht2, hl2⟩ := hcov k hkkeys
      rcases List.mem_cons.mp hrow2 with rfl | hrow3
      · have : t2 = t := Option.some.inj (ht2 ▸ ht)
        subst this
        exact absurd hl2 (fun h => hkne h.symm)
      · exact ⟨row2, hrow3, t2, ht2, hl2⟩

theorem known_fold_popped :
    ∀ (rows : List Row) (keys out : List String),
    rows.foldlM known_step keys = some out →
    ∀ k ∈ keys, k ∉ out →
    ∃ row ∈ rows, ∃ t, row_get row "Tag" = some t ∧ py_lower t = k := by
  intro rows
  induction rows with
  | nil =>
    intro keys out h k hk hout
    simp only [List.foldlM_nil, Option.pure_def, Option.some.injEq] at h
    rw [h] at hk
    exact absurd hk hout
  | cons row rows ih =>
    intro keys out h k hk hout
    rw [List.foldlM_cons] at h
    cases hstep : known_step keys row with
    | none => rw [hstep] at h; exact absurd h (by simp)
    | some keys2 =>
      rw [hstep] at h
      simp only [Option.bind_eq_bind, Option.some_bind] at h
      rw [known_step] at hstep
      cases ht : row_get row "Tag" with
      | none => rw [ht] at hstep; exact absurd hstep (by simp)
      | some t =>
        rw [ht] at hstep
        simp only [Option.some.injEq] at hstep
        by_cases hk2 : k ∈ keys2
        · obtain ⟨row2, hrow2, hrest⟩ := ih keys2 out h k hk2 hout
          exact ⟨row2, List.mem_cons_of_mem _ hrow2, hrest⟩
        · refine ⟨row, List.mem_cons_self _ _, t, ht, ?_⟩
          rw [← hstep] at hk2
          revert hk2
          split
          · intro hk2
            by_contra hne
            exact hk2 (List.mem_erase_of_ne (fun h2 => hne h2.symm) |>.mpr hk)
          · intro hk2
            exact absurd hk hk2

theorem remove_known_tags_nil_of_covered (st : CsvState) (tags : List String)
    (hread : ReadOK st)
    (hcov : ∀ k ∈ lower_keys tags, HasTagL st k) :
    remove_known_tags (some st) tags = some [] := by
  rw [remove_known_tags]
  exact known_fold_nil (read_rows st) (lower_keys tags) (lower_keys_nodup tags) hread hcov

theorem remove_known_tags_popped (st : CsvState) (tags out : List String)
    (h : remove_known_tags (some st) tags = some out)
    (k : String) (hk : k ∈ lower_keys tags) (hout : k ∉ out) :
    HasTagL st k := by
  rw [remove_known_tags] at h
  obtain ⟨row, hrow, t, ht, hl⟩ := known_fold_popped (read_rows st) _ out h k hk hout
  exact ⟨row, hrow, t, ht, hl⟩

theorem upsert_fold_spec (counts : String → Nat → Nat) :
    ∀ (ts : List String) (store st1 : Option CsvState),
    ts.foldlM (fun st t => (update_csv_file st (build_row (counts t) t)).map some) store
      = some st1 →
    ((∀ l, HasTagLO store l → HasTagLO st1 l) ∧
     (∀ t ∈ ts, HasTagLO st1 (py_lower t)) ∧
     (ts = [] → st1 = store) ∧
     (ts ≠ [] → ∃ stF, st1 = some stF ∧ stF.header = csv_fieldnames ∧ ReadOK stF)) := by
  intro ts
  induction ts with
  | nil =>
    intro store st1 h
    simp only [List.foldlM_nil, Option.pure_def, Option.some.injEq] at h
    subst h
    exact ⟨fun l hl => hl, fun t ht => absurd ht (by simp), fun _ => rfl,
      fun hne => absurd rfl hne⟩
  | cons t ts ih =>
    intro store st1 h
    rw [List.foldlM_cons] at h
    cases hu : update_csv_file store (build_row (counts t) t) with
    | none =>
      rw [show ((update_csv_file store (build_row (counts t) t)).map some) = none from by
        rw [hu]; rfl] at h
      exact absurd h (by simp)
    | some st2 =>
      rw [show ((update_csv_file store (build_row (counts t) t)).map some) =
          some (some st2) from by rw [hu]; rfl] at h
      simp only [Option.bind_eq_bind, Option.some_bind] at h
      obtain ⟨hhead2, hread2, htag2, hpres2⟩ := update_build_row_spec store (counts t) t st2 hu
      obtain ⟨c1, c2, c3, c4⟩ := ih (some st2) st1 h
      have hcarry : ∀ l, HasTagLO store l → HasTagLO (some st2) l := by
        intro l hl
        cases store with
        | none => exact absurd hl (by rw [HasTagLO] at hl ⊢; exact fun x => x)
        | some st0 =>
          obtain ⟨row, hrow, t0, ht0, hl0⟩ := hl
          rw [← hl0]
          exact hpres2 row hrow t0 ht0
      refine ⟨fun l hl => c1 l (hcarry l hl), ?_, ?_, ?_⟩
      · intro t2 ht2
        rcases List.mem_cons.mp ht2 with rfl | ht3
        · exact c1 (py_lower t2) htag2
        · exact c2 t2 ht3
      · intro habs
        exact absurd habs (by simp)
      · intro _
        cases hts : ts with
        | nil =>
          refine ⟨st2, ?_, hhead2, hread2⟩
          rw [c3 hts]
        | cons a l =>
          exact c4 (by rw [hts]; simp)

/-- C8: Running the Known-Tag Filter followed by the Result Store
upserts twice with identical inputs (overwrite off, deterministic
counts) is idempotent: if the first filter-then-upsert run produces a
Result Table state, running the pair again on that state returns it
unchanged — on the second run the filter removes every tag (each is now
recorded), so no upsert occurs. -/
theorem c8_filter_upsert_idempotent (counts : String → Nat → Nat)
    (store : Option CsvState) (tags : List String) (st1 : Option CsvState)
    (h : run_filter_upsert counts store tags = some st1) :
    run_filter_upsert counts st1 tags = some st1 := by
  rw [run_filter_upsert] at h
  cases hfil : remove_known_tags store tags with
  | none => rw [hfil] at h; exact absurd h (by simp)
  | some filtered =>
    rw [hfil] at h
    obtain ⟨c1, c2, c3, c4⟩ := upsert_fold_spec counts filtered store st1 h
    by_cases hemp : filtered = []
    · have hst1 : st1 = store := c3 hemp
      cases hstore : store with
      | none =>
        rw [hstore] at hst1 hfil
        subst hst1
        have htags : tags = [] := by
          rw [remove_known_tags] at hfil
          simp only [Option.some.injEq] at hfil
          rw [hfil, hemp]
        rw [run_filter_upsert, htags]
        rw [show remove_known_tags none [] = some [] from rfl]
        rfl
      | some st0 =>
        rw [hstore] at hst1 hfil
        subst hst1
        rw [run_filter_upsert, hfil, hemp]
        rfl
    · obtain ⟨stF, hstF, hheadF, hreadF⟩ := c4 hemp
      subst hstF
      have hcov : ∀ k ∈ lower_keys tags, HasTagL stF k := by
        intro k hk
        obtain ⟨t0, ht0, rfl⟩ := lower_keys_mem tags k hk
        cases hstore : store with
        | none =>
          rw [hstore] at hfil
          have hft : filtered = tags := by
            rw [remove_known_tags] at hfil
            simp only [Option.some.injEq] at hfil
            rw [hfil]
          exact c2 t0 (by rw [hft]; exact ht0)
        | some st0 =>
          rw [hstore] at hfil c1
          by_cases hmem : py_lower t0 ∈ filtered
          · have hx := c2 (py_lower t0) hmem
            rw [py_lower_idem] at hx
            exact hx
          · exact c1 (py_lower t0) (remove_known_tags_popped st0 tags filtered hfil
              (py_lower t0) (lower_keys_complete tags t0 ht0) hmem)
      rw [run_filter_upsert,
        remove_known_tags_nil_of_covered stF tags hreadF hcov]
      rfl

theorem c8_witness :
    run_filter_upsert (fun _ => counts_zero)
      (some ⟨csv_fieldnames, ["Fox" :: year_values counts_zero]⟩) ["Fox", "fox"] =
      some (some ⟨csv_fieldnames, ["Fox" :: year_values counts_zero]⟩) :=
  c8_filter_upsert_idempotent (fun _ => counts_zero) none ["Fox", "fox"]
    (some ⟨csv_fieldnames, ["Fox" :: year_values counts_zero]⟩) (by rfl)
